import Mathlib

/-! External scanner of the Sass indented syntax (`src/scanner.c`).

A shallow embedding of the scanner: the indentation stack with its pending-dedent
counter, the string-content sub-scanner, and the byte encoding of the state.

Machine integers are natural numbers; a reduction `% 2 ^ w` stands wherever the C
code narrows a value to a `w`-bit type.  An access to `indent_stack` outside its
`MAX_INDENT_DEPTH` entries is undefined behaviour in C; here it makes the
operation return `none`.
-/

namespace SassScanner

/-! ## Characters tested by the scanner (code points) -/

/-- Horizontal tab, `'\t'`. -/
def TAB : Nat := 9
/-- Line feed, `'\n'`. -/
def LF : Nat := 10
/-- Carriage return, `'\r'`. -/
def CR : Nat := 13
/-- Space. -/
def SPACE : Nat := 32
/-- Double quote. -/
def DQUOTE : Nat := 34
/-- Hash sign, first character of the interpolation opener. -/
def HASH : Nat := 35
/-- Single quote. -/
def SQUOTE : Nat := 39
/-- Backslash. -/
def BACKSLASH : Nat := 92
/-- Opening brace, second character of the interpolation opener. -/
def LBRACE : Nat := 123

/-! ## Data model -/

/-- The enumeration `TokenType` of the source, in its order. -/
inductive TokenType where
  | INDENT
  | DEDENT
  | NEWLINE
  | STRING_CONTENT
  | ERROR_SENTINEL
  deriving DecidableEq, Repr

open TokenType

/-- Capacity of the indentation stack (`#define MAX_INDENT_DEPTH 100`). -/
def MAX_INDENT_DEPTH : Nat := 100

/-- Modelled from the spec: the constant `TREE_SITTER_SERIALIZATION_BUFFER_SIZE` of the
host header `tree_sitter/parser.h`, the capacity in bytes of the small fixed-capacity
buffer that `serialize` fills. -/
def TREE_SITTER_SERIALIZATION_BUFFER_SIZE : Nat := 1024

/-- The struct `Scanner`: `indent_stack` is the array of `MAX_INDENT_DEPTH` 16-bit widths
(only indices below `MAX_INDENT_DEPTH` are ever read or written, through `Scanner.read`
and `Scanner.write`), `stack_size` and `dedent_count` are the two 8-bit fields. -/
structure Scanner where
  indent_stack : Nat → Nat
  stack_size : Nat
  dedent_count : Nat

/-- Array read `scanner->indent_stack[i]`; `none` when `i` is outside the array. -/
def Scanner.read (s : Scanner) (i : Nat) : Option Nat :=
  if i < MAX_INDENT_DEPTH then some (s.indent_stack i) else none

/-- Array write `scanner->indent_stack[i] = v`; `none` when `i` is outside the array. -/
def Scanner.write (s : Scanner) (i v : Nat) : Option Scanner :=
  if i < MAX_INDENT_DEPTH then
    some { s with indent_stack := fun j => if j = i then v else s.indent_stack j }
  else none

/-- The stored indentation widths `indent_stack[0 .. stack_size)`, bottom first. -/
def Scanner.stack (s : Scanner) : List Nat :=
  (List.range s.stack_size).map s.indent_stack

/-- Position recorded by `mark_end`: the token text so far and the cursor there. -/
structure Mark where
  token : List Nat
  rest : List Nat
  column : Nat
  deriving DecidableEq, Repr

/-- Modelled from the spec: the cursor `TSLexer` of the host engine (section 4.1), whose
code is not part of this repository.  `rest` is the unread text, its head being the
lookahead; `column` is the number of characters passed since the last line feed;
`token` holds the characters advanced over as significant since the token start;
`marked` is the end boundary set by `mark_end`, if any; `result_symbol` is the output
field. -/
structure TSLexer where
  rest : List Nat
  column : Nat
  token : List Nat
  marked : Option Mark
  result_symbol : TokenType
  deriving DecidableEq, Repr

/-- Modelled from the spec: operation (a), peek the next character; the host reports
the character 0 at end of input. -/
def TSLexer.lookahead (lx : TSLexer) : Nat := lx.rest.headD 0

/-- Modelled from the spec: operation (d), query end of input. -/
def TSLexer.eof (lx : TSLexer) : Bool := lx.rest.isEmpty

/-- Modelled from the spec: operation (e), the column offset since the last line break. -/
def TSLexer.get_column (lx : TSLexer) : Nat := lx.column

/-- Modelled from the spec: operation (c), mark the current position as the end boundary
of the token under construction. -/
def TSLexer.mark_end (lx : TSLexer) : TSLexer :=
  { lx with marked := some ⟨lx.token, lx.rest, lx.column⟩ }

/-- Modelled from the spec: operation (b), advance by one character, either significant
(it joins the token) or skipped (the token starts anew after it).  Nothing happens at
end of input. -/
def TSLexer.advance (lx : TSLexer) (skip : Bool) : TSLexer :=
  match lx.rest with
  | [] => lx
  | c :: cs =>
    { lx with
      rest := cs
      column := if c = LF then 0 else lx.column + 1
      token := if skip then [] else lx.token ++ [c] }

/-- Modelled from the spec: the text of the token the host receives, up to the marked end
boundary, or up to the cursor when no boundary was marked. -/
def TSLexer.span (lx : TSLexer) : List Nat :=
  match lx.marked with
  | some m => m.token
  | none => lx.token

/-- Modelled from the spec: the host takes the token and presents the cursor for the next
one, which starts at the end boundary of the token taken. -/
def TSLexer.accept (lx : TSLexer) : TSLexer :=
  match lx.marked with
  | some m => { lx with rest := m.rest, column := m.column, token := [], marked := none }
  | none => { lx with token := [], marked := none }

/-- The helper `advance` of the source: a significant advance. -/
def advance (lx : TSLexer) : TSLexer := lx.advance false

/-- The helper `skip` of the source: a skipped advance. -/
def skip (lx : TSLexer) : TSLexer := lx.advance true

/-! ## Lifecycle -/

/-- The function `tree_sitter_sass_external_scanner_create`: zeroed memory, empty stack. -/
def create : Scanner :=
  { indent_stack := fun _ => 0, stack_size := 0, dedent_count := 0 }

/-- The loop of `serialize` (lines 51-56): `n` bounds the iterations left, `i` is the
index, `buffer` the bytes written so far (`size` is its length). -/
def serialize_loop (s : Scanner) : Nat → Nat → List Nat → Option (List Nat)
  | 0, _, buffer => some buffer
  | n + 1, i, buffer =>
    if i < s.stack_size ∧ buffer.length < TREE_SITTER_SERIALIZATION_BUFFER_SIZE - 2 then
      (s.read i).bind fun w =>
        serialize_loop s n ((i + 1) % 2 ^ 8) (buffer ++ [w &&& 0xFF, (w >>> 8) &&& 0xFF])
    else some buffer

/-- The function `tree_sitter_sass_external_scanner_serialize`: the bytes written; the
returned size is the length of the list. -/
def serialize (s : Scanner) : Option (List Nat) :=
  serialize_loop s s.stack_size 0 [s.stack_size % 2 ^ 8, s.dedent_count % 2 ^ 8]

/-- The loop of `deserialize` (lines 79-83): `n` bounds the iterations left, `j` is the
stack index and `i` the buffer index. -/
def deserialize_loop (buffer : List Nat) : Nat → Nat → Nat → Scanner → Option Scanner
  | 0, _, _, s => some s
  | n + 1, j, i, s =>
    if j < s.stack_size ∧ i + 1 < buffer.length then
      (s.write j ((buffer.getD i 0 % 2 ^ 8) ||| ((buffer.getD (i + 1) 0 % 2 ^ 8) <<< 8))).bind
        fun s1 => deserialize_loop buffer n ((j + 1) % 2 ^ 8) (i + 2) s1
    else some s

/-- The function `tree_sitter_sass_external_scanner_deserialize`; `length` is the length
of `buffer`. -/
def deserialize (scanner : Scanner) (buffer : List Nat) : Option Scanner :=
  let s0 : Scanner := { scanner with stack_size := 0, dedent_count := 0 }
  if buffer.length = 0 then s0.write 0 0
  else
    let s1 : Scanner := { s0 with stack_size := buffer.getD 0 0 % 2 ^ 8 }
    if 1 ≥ buffer.length then some s1
    else
      let s2 : Scanner := { s1 with dedent_count := buffer.getD 1 0 % 2 ^ 8 }
      deserialize_loop buffer s2.stack_size 0 2 s2

/-- The function `current_indent`: top of the stack, 0 when the stack is empty. -/
def current_indent (s : Scanner) : Option Nat :=
  if s.stack_size = 0 then some 0 else s.read (s.stack_size - 1)

/-! ## Scanning -/

/-- Outcome of one call of `scan`: the returned flag, the state and the cursor. -/
structure ScanResult where
  returned : Bool
  scanner : Scanner
  lexer : TSLexer

/-- The loop of the string-content scanner (lines 111-141) followed by the `return false`
of line 143; `n` bounds the iterations left. -/
def scan_string : Nat → Bool → TSLexer → Bool × TSLexer
  | 0, _, lx => (false, lx)
  | n + 1, has_content, lx =>
    if lx.eof then (false, lx)
    else if lx.lookahead = DQUOTE ∨ lx.lookahead = SQUOTE then
      (has_content, { lx.mark_end with result_symbol := STRING_CONTENT })
    else if lx.lookahead = BACKSLASH then
      (has_content, { lx.mark_end with result_symbol := STRING_CONTENT })
    else if lx.lookahead = HASH then
      let lx1 := advance lx.mark_end
      if lx1.lookahead = LBRACE then
        (has_content, { lx1 with result_symbol := STRING_CONTENT })
      else scan_string n true lx1
    else if lx.lookahead = LF ∨ lx.lookahead = CR then (false, lx)
    else scan_string n true (advance lx)

/-- The loop `while (lookahead == ' ' || lookahead == '\t') skip(lexer);` (lines 149-151). -/
def skip_blanks_loop : Nat → TSLexer → TSLexer
  | 0, lx => lx
  | n + 1, lx =>
    if lx.lookahead = SPACE ∨ lx.lookahead = TAB then skip_blanks_loop n (skip lx) else lx

/-- Lines 149-151 with as many iterations as there are unread characters. -/
def skip_blanks (lx : TSLexer) : TSLexer := skip_blanks_loop lx.rest.length lx

/-- The width-counting loop (lines 158-165, 170-177, 199-206): a space adds 1 and a tab
adds 2 to the 16-bit `indent`. -/
def count_indent_loop : Nat → Nat → TSLexer → Nat × TSLexer
  | 0, indent, lx => (indent, lx)
  | n + 1, indent, lx =>
    if lx.lookahead = SPACE ∨ lx.lookahead = TAB then
      count_indent_loop n
        (if lx.lookahead = SPACE then (indent + 1) % 2 ^ 16 else (indent + 2) % 2 ^ 16) (skip lx)
    else (indent, lx)

/-- The width-counting loop with as many iterations as there are unread characters. -/
def count_indent (indent : Nat) (lx : TSLexer) : Nat × TSLexer :=
  count_indent_loop lx.rest.length indent lx

/-- The inner line-break loop (lines 167-178). -/
def blank_lines_loop : Nat → Nat → TSLexer → Nat × TSLexer
  | 0, indent, lx => (indent, lx)
  | n + 1, indent, lx =>
    if lx.lookahead = LF ∨ lx.lookahead = CR then
      let r := count_indent 0 (skip lx)
      blank_lines_loop n r.1 r.2
    else (indent, lx)

/-- Lines 167-178 with as many iterations as there are unread characters. -/
def blank_lines (indent : Nat) (lx : TSLexer) : Nat × TSLexer :=
  blank_lines_loop lx.rest.length indent lx

/-- The outer line-break loop (lines 153-179), giving `found_newline`, `indent` and the
cursor. -/
def skip_lines_loop : Nat → Bool → Nat → TSLexer → Bool × Nat × TSLexer
  | 0, found_newline, indent, lx => (found_newline, indent, lx)
  | n + 1, found_newline, indent, lx =>
    if lx.lookahead = LF ∨ lx.lookahead = CR then
      let r1 := count_indent 0 (skip lx)
      let r2 := blank_lines r1.1 r1.2
      skip_lines_loop n true r2.1 r2.2
    else (found_newline, indent, lx)

/-- Lines 146-179 after the first whitespace loop: `found_newline = false`, `indent = 0`,
then the outer loop. -/
def skip_lines (lx : TSLexer) : Bool × Nat × TSLexer :=
  skip_lines_loop lx.rest.length false 0 lx

/-- The counting loop of the DEDENT branch (lines 227-234): `n` is `i + 1`, and `dedents`
is 8 bits wide. -/
def count_dedents (s : Scanner) (col : Nat) : Nat → Nat → Option Nat
  | 0, dedents => some dedents
  | i + 1, dedents =>
    (s.read i).bind fun w =>
      if w > col then count_dedents s col i ((dedents + 1) % 2 ^ 8) else some dedents

/-- The DEDENT branch (lines 222-243) and the final `return false`. -/
def scan_dedent (s : Scanner) (lx : TSLexer) (valid_symbols : TokenType → Bool) :
    Option ScanResult :=
  if valid_symbols DEDENT then
    let col := lx.get_column % 2 ^ 16
    (current_indent s).bind fun current =>
      if col < current ∧ s.stack_size > 0 then
        (count_dedents s col s.stack_size 0).bind fun dedents =>
          if dedents > 0 then
            some ⟨true, { s with dedent_count := dedents - 1, stack_size := s.stack_size - 1 },
              { lx with result_symbol := DEDENT }⟩
          else some ⟨false, s, lx⟩
      else some ⟨false, s, lx⟩
  else some ⟨false, s, lx⟩

/-- The width computation of the INDENT branch (lines 197-209): at column 0 the
whitespace is counted from `indent = 0`, elsewhere the column is narrowed to the 16-bit
`indent`. -/
def indent_width (lx : TSLexer) : Nat × TSLexer :=
  if lx.get_column = 0 then count_indent 0 lx else (lx.get_column % 2 ^ 16, lx)

/-- The INDENT branch (lines 194-220), falling through to the DEDENT branch.  The value
of `indent` left by the line-break loops is overwritten on both paths (lines 198, 208)
before it is read. -/
def scan_indent (s : Scanner) (lx : TSLexer) (valid_symbols : TokenType → Bool) :
    Option ScanResult :=
  if valid_symbols INDENT then
    (current_indent s).bind fun current =>
      let indent := (indent_width lx).1
      let lx1 := (indent_width lx).2
      if indent > current ∧ ¬ lx1.eof ∧ lx1.lookahead ≠ LF ∧ lx1.lookahead ≠ CR then
        (if s.stack_size < MAX_INDENT_DEPTH then
            (s.write s.stack_size indent).map fun s1 =>
              { s1 with stack_size := s.stack_size + 1 }
          else some s).map fun s2 =>
          ⟨true, s2, { lx1.mark_end with result_symbol := INDENT }⟩
      else scan_dedent s lx1 valid_symbols
  else scan_dedent s lx valid_symbols

/-- The function `tree_sitter_sass_external_scanner_scan`. -/
def scan (s : Scanner) (lx : TSLexer) (valid_symbols : TokenType → Bool) : Option ScanResult :=
  if valid_symbols ERROR_SENTINEL then some ⟨false, s, lx⟩
  else if valid_symbols DEDENT ∧ s.dedent_count > 0 then
    some ⟨true,
      { s with
        dedent_count := s.dedent_count - 1
        stack_size := if s.stack_size > 0 then s.stack_size - 1 else s.stack_size },
      { lx with result_symbol := DEDENT }⟩
  else if valid_symbols STRING_CONTENT then
    let r := scan_string lx.rest.length false lx
    some ⟨r.1, s, r.2⟩
  else
    let r := skip_lines (skip_blanks lx)
    let found_newline := r.1
    let lx2 := r.2.2
    if valid_symbols NEWLINE ∧ found_newline then
      let lx3 : TSLexer := { lx2.mark_end with result_symbol := NEWLINE }
      (current_indent s).bind fun _ =>
        some ⟨true, if lx3.eof then { s with dedent_count := s.stack_size } else s, lx3⟩
    else scan_indent s lx2 valid_symbols

/-! ## Vocabulary of the statements -/

/-- A space or a tab, the characters of the horizontal-whitespace loops. -/
def is_blank (c : Nat) : Bool := c == SPACE || c == TAB

/-- A line break, `'\n'` or `'\r'`. -/
def is_break (c : Nat) : Bool := c == LF || c == CR

/-- A space, a tab or a line break. -/
def is_space (c : Nat) : Bool := is_blank c || is_break c

/-- The accepted-symbol set holding one symbol only. -/
def only (t : TokenType) : TokenType → Bool := fun x => decide (x = t)

/-- The cursor as the host presents it at the start of a token: no character taken
yet, no end boundary marked. -/
def start (rest : List Nat) (column : Nat) (symbol : TokenType) : TSLexer :=
  ⟨rest, column, [], none, symbol⟩

/-- Top of the stack as a number: 0 for the empty stack. -/
def Scanner.top (s : Scanner) : Nat :=
  if s.stack_size = 0 then 0 else s.indent_stack (s.stack_size - 1)

/-- The state after `indent_stack[stack_size++] = indent`. -/
def Scanner.push (s : Scanner) (indent : Nat) : Scanner :=
  { indent_stack := fun j => if j = s.stack_size then indent else s.indent_stack j
    stack_size := s.stack_size + 1
    dedent_count := s.dedent_count }

/-- The invariant of the stack: depth within the array, widths positive and 16 bits wide,
strictly increasing from the bottom to the top. -/
def StackInv (s : Scanner) : Prop :=
  s.stack_size ≤ MAX_INDENT_DEPTH ∧
  (∀ i, i < s.stack_size → 0 < s.indent_stack i ∧ s.indent_stack i < 2 ^ 16) ∧
  (∀ i j, i < j → j < s.stack_size → s.indent_stack i < s.indent_stack j)

/-- What a call of `scan` can do to the state: shrink the stack (or leave it) without
touching the array, or push one width above the top. -/
def Step (s s1 : Scanner) : Prop :=
  (s1.indent_stack = s.indent_stack ∧ s1.stack_size ≤ s.stack_size) ∨
  (∃ indent, s.top < indent ∧ indent < 2 ^ 16 ∧ s.stack_size < MAX_INDENT_DEPTH ∧
    s1 = s.push indent)

/-- Two states with the same depth, the same counter and the same widths on the stack. -/
def Scanner.Equiv (a b : Scanner) : Prop :=
  a.stack_size = b.stack_size ∧ a.dedent_count = b.dedent_count ∧
    ∀ i, i < a.stack_size → a.indent_stack i = b.indent_stack i

/-- Two outcomes of `scan` that the host cannot tell apart. -/
def ScanResult.Agree (r1 r2 : ScanResult) : Prop :=
  r1.returned = r2.returned ∧ r1.lexer = r2.lexer ∧ r1.scanner.Equiv r2.scanner

/-- The state with the two levels 2 and 4 on the stack. -/
def two_levels : Scanner := (create.push 2).push 4

/-- The state with an empty stack and one DEDENT pending, as `deserialize` makes it from
the two bytes 0 and 1. -/
def pending_on_empty : Scanner := { create with dedent_count := 1 }

/-- Consecutive calls of `scan` with one accepted-symbol set: each call works on the state
the previous one left and on the cursor as the host presents it after taking the token.
The result lists the returned flag and result symbol of every call, then the final state
and cursor. -/
def scan_times (valid_symbols : TokenType → Bool) :
    Nat → Scanner → TSLexer → Option (List (Bool × TokenType) × Scanner × TSLexer)
  | 0, s, lx => some ([], s, lx)
  | n + 1, s, lx =>
    (scan s lx valid_symbols).bind fun r =>
      (scan_times valid_symbols n r.scanner r.lexer.accept).map fun out =>
        ((r.returned, r.lexer.result_symbol) :: out.1, out.2)

/-- The number of stack levels strictly greater than the column `c`. -/
def levels_above (s : Scanner) (c : Nat) : Nat :=
  s.stack.countP fun w => decide (c < w)

/-- The state with the three levels 2, 4 and 6 on the stack. -/
def three_levels : Scanner := two_levels.push 6

/-- Modelled from the spec: the host's own lexer takes the next character as a token of
the grammar and presents the cursor after it. -/
def host_char (lx : TSLexer) : TSLexer := (lx.advance false).accept

/-- The document `a`, line feed, two spaces, `b`, line feed, four spaces, `c`, with no
line break at its end. -/
def nested_document : List Nat := [97, LF, SPACE, SPACE, 98, LF, SPACE, SPACE, SPACE, SPACE, 99]

/-- What a call of `scan` shows: the returned flag, the result symbol, the stack, the
counter, the unread text and the column. -/
def ScanResult.view (r : ScanResult) : Bool × TokenType × List Nat × Nat × List Nat × Nat :=
  (r.returned, r.lexer.result_symbol, r.scanner.stack, r.scanner.dedent_count, r.lexer.rest,
    r.lexer.column)

/-- The accepted-symbol set holding INDENT, DEDENT and NEWLINE. -/
def layout_symbols : TokenType → Bool :=
  fun t => decide (t = INDENT) || decide (t = DEDENT) || decide (t = NEWLINE)

/-- The scans over `nested_document` from the initial state: NEWLINE after `a`, INDENT
before `b`, NEWLINE after `b`, INDENT before `c`, and, at the end of the input after `c`,
one call with the accepted-symbol set `at_end`.  The host takes `a`, `b` and `c` itself. -/
def nested_document_run (at_end : TokenType → Bool) :
    Option (List (Bool × TokenType × List Nat × Nat × List Nat × Nat)) :=
  (scan create (host_char (start nested_document 0 ERROR_SENTINEL)) (only NEWLINE)).bind fun r1 =>
  (scan r1.scanner r1.lexer.accept (only INDENT)).bind fun r2 =>
  (scan r2.scanner (host_char r2.lexer.accept) (only NEWLINE)).bind fun r3 =>
  (scan r3.scanner r3.lexer.accept (only INDENT)).bind fun r4 =>
  (scan r4.scanner (host_char r4.lexer.accept) at_end).map fun r5 =>
    [r1.view, r2.view, r3.view, r4.view, r5.view]

/-- NEWLINE then INDENT from the initial state over a text that starts at a line break:
the views of the two calls. -/
def newline_indent_run (text : List Nat) :
    Option (List (Bool × TokenType × List Nat × Nat × List Nat × Nat)) :=
  (scan create (start text 0 ERROR_SENTINEL) (only NEWLINE)).bind fun r1 =>
  (scan r1.scanner r1.lexer.accept (only INDENT)).map fun r2 => [r1.view, r2.view]

/-- A double quote, a single quote or a backslash. -/
def is_stop (c : Nat) : Bool := c == DQUOTE || c == SQUOTE || c == BACKSLASH

/-- The text holds a `#` immediately followed by `{`. -/
def has_opener : List Nat → Bool
  | [] => false
  | c :: cs => (c == HASH && cs.headD 0 == LBRACE) || has_opener cs

/-- The text begins with a quote, a backslash or the two characters `#` and `{`. -/
def starts_delimiter : List Nat → Bool
  | [] => false
  | c :: cs => is_stop c || (c == HASH && cs.headD 0 == LBRACE)

/-- Ordinary string content: no quote, no backslash, no line break. -/
def is_plain (c : Nat) : Bool := !is_stop c && !is_break c

/-- The accepted-symbol set holding DEDENT and STRING_CONTENT. -/
def dedent_or_string : TokenType → Bool :=
  fun t => decide (t = DEDENT) || decide (t = STRING_CONTENT)

/-- The stack `[2, 4]` with one DEDENT pending. -/
def pending_one : Scanner := { two_levels with dedent_count := 1 }

/-- The state the first DEDENT from the stack `[2, 4, 6]` at column 3 leaves: the stack
`[2, 4]` with one DEDENT pending (the width 6 stays in the array above the stack). -/
def dedent_pending : Scanner := { three_levels with dedent_count := 1, stack_size := 2 }

/-- The cursor after the whitespace loops of lines 149-179. -/
def after_whitespace (lx : TSLexer) : TSLexer := (skip_lines (skip_blanks lx)).2.2

/-- The flag `found_newline` after the whitespace loops of lines 149-179. -/
def found_newline (lx : TSLexer) : Bool := (skip_lines (skip_blanks lx)).1

/-- The accepted-symbol set holding every symbol, as the host presents it in error
recovery. -/
def every_symbol : TokenType → Bool := fun _ => true

/-- The state with a full stack: the 100 levels 1, 2, ..., 100. -/
def full_stack : Scanner :=
  { indent_stack := fun i => i + 1, stack_size := MAX_INDENT_DEPTH, dedent_count := 0 }

/-- The accepted-symbol set holding NEWLINE and INDENT. -/
def newline_or_indent : TokenType → Bool :=
  fun t => decide (t = NEWLINE) || decide (t = INDENT)

/-- A line break, 101 spaces and the content character `x`. -/
def deep_line : List Nat := LF :: (List.replicate 101 SPACE ++ [120])

/-- The states the host can bring a scanner into: the state made by `create`, the state
left by a call of `scan` on a reachable state (any cursor, any accepted-symbol set), and
the state an instance holds after `deserialize` of the bytes `serialize` wrote for a
reachable state. -/
inductive Reachable : Scanner → Prop where
  | create : Reachable create
  | scan (s : Scanner) (lx : TSLexer) (valid_symbols : TokenType → Bool) (r : ScanResult) :
      Reachable s → scan s lx valid_symbols = some r → Reachable r.scanner
  | restore (s t : Scanner) (buffer : List Nat) (t1 : Scanner) :
      Reachable s → serialize s = some buffer → deserialize t buffer = some t1 → Reachable t1

/-- A sequence of calls of `scan`, each on the state the previous one left; what the host
sees of every call is the returned flag and the cursor. -/
def scan_all : Scanner → List (TSLexer × (TokenType → Bool)) → Option (List (Bool × TSLexer))
  | _, [] => some []
  | s, (lx, valid_symbols) :: calls =>
    (scan s lx valid_symbols).bind fun r =>
      (scan_all r.scanner calls).map fun seen => (r.returned, r.lexer) :: seen

/-! ## Basic facts -/

theorem scan_of_error (s : Scanner) (lx : TSLexer) (valid : TokenType → Bool)
    (hE : valid ERROR_SENTINEL = true) : scan s lx valid = some ⟨false, s, lx⟩ := by
  simp [scan, hE]

theorem scan_of_pending (s : Scanner) (lx : TSLexer) (valid : TokenType → Bool)
    (hE : valid ERROR_SENTINEL = false) (hD : valid DEDENT = true) (hn : 0 < s.dedent_count) :
    scan s lx valid = some ⟨true,
      { s with
        dedent_count := s.dedent_count - 1
        stack_size := if s.stack_size > 0 then s.stack_size - 1 else s.stack_size },
      { lx with result_symbol := DEDENT }⟩ := by
  simp [scan, hE, hD, hn]

theorem stack_length (s : Scanner) : s.stack.length = s.stack_size := by
  simp [Scanner.stack]

theorem skip_rest (lx : TSLexer) : (skip lx).rest = lx.rest.tail := by
  unfold skip TSLexer.advance
  cases h : lx.rest <;> simp [h]

theorem blank_cond (lx : TSLexer) :
    (lx.lookahead = SPACE ∨ lx.lookahead = TAB) ↔ ∃ c cs, lx.rest = c :: cs ∧ is_blank c = true := by
  unfold TSLexer.lookahead is_blank
  cases h : lx.rest <;> simp [SPACE, TAB]

theorem break_cond (lx : TSLexer) :
    (lx.lookahead = LF ∨ lx.lookahead = CR) ↔ ∃ c cs, lx.rest = c :: cs ∧ is_break c = true := by
  unfold TSLexer.lookahead is_break
  cases h : lx.rest <;> simp [LF, CR]

theorem dropWhile_of_not_cond {p : Nat → Bool} {l : List Nat}
    (h : ¬ ∃ c cs, l = c :: cs ∧ p c = true) : l.dropWhile p = l := by
  cases l with
  | nil => rfl
  | cons c cs =>
    have : p c = false := by
      cases hp : p c
      · rfl
      · exact absurd ⟨c, cs, rfl, hp⟩ h
    simp [List.dropWhile, this]

theorem skip_blanks_loop_rest (n : Nat) (lx : TSLexer) (hn : lx.rest.length ≤ n) :
    (skip_blanks_loop n lx).rest = lx.rest.dropWhile is_blank := by
  induction n generalizing lx with
  | zero =>
    have : lx.rest = [] := List.eq_nil_of_length_eq_zero (by omega)
    simp [skip_blanks_loop, this]
  | succ n ih =>
    unfold skip_blanks_loop
    by_cases hc : lx.lookahead = SPACE ∨ lx.lookahead = TAB
    · rw [if_pos hc]
      obtain ⟨c, cs, hr, hb⟩ := (blank_cond lx).1 hc
      have hs : (skip lx).rest = cs := by rw [skip_rest, hr]; rfl
      rw [ih (skip lx) (by rw [hs]; rw [hr] at hn; simpa using hn), hs, hr]
      simp [List.dropWhile, hb]
    · rw [if_neg hc]
      rw [blank_cond] at hc
      exact (dropWhile_of_not_cond hc).symm

theorem skip_blanks_rest (lx : TSLexer) : (skip_blanks lx).rest = lx.rest.dropWhile is_blank :=
  skip_blanks_loop_rest _ lx (le_refl _)

theorem count_indent_loop_rest (n indent : Nat) (lx : TSLexer) (hn : lx.rest.length ≤ n) :
    (count_indent_loop n indent lx).2.rest = lx.rest.dropWhile is_blank := by
  induction n generalizing lx indent with
  | zero =>
    have : lx.rest = [] := List.eq_nil_of_length_eq_zero (by omega)
    simp [count_indent_loop, this]
  | succ n ih =>
    unfold count_indent_loop
    by_cases hc : lx.lookahead = SPACE ∨ lx.lookahead = TAB
    · rw [if_pos hc]
      obtain ⟨c, cs, hr, hb⟩ := (blank_cond lx).1 hc
      have hs : (skip lx).rest = cs := by rw [skip_rest, hr]; rfl
      rw [ih _ (skip lx) (by rw [hs]; rw [hr] at hn; simpa using hn), hs, hr]
      simp [List.dropWhile, hb]
    · rw [if_neg hc]
      rw [blank_cond] at hc
      exact (dropWhile_of_not_cond hc).symm

theorem count_indent_rest (indent : Nat) (lx : TSLexer) :
    (count_indent indent lx).2.rest = lx.rest.dropWhile is_blank :=
  count_indent_loop_rest _ _ lx (le_refl _)

theorem count_indent_loop_lt (n indent : Nat) (lx : TSLexer) (hi : indent < 2 ^ 16) :
    (count_indent_loop n indent lx).1 < 2 ^ 16 := by
  induction n generalizing lx indent with
  | zero => simpa [count_indent_loop] using hi
  | succ n ih =>
    unfold count_indent_loop
    split
    · apply ih
      split <;> exact Nat.mod_lt _ (by norm_num)
    · exact hi

theorem count_indent_loop_of_not_blank (n indent : Nat) (lx : TSLexer)
    (h : ¬ (lx.lookahead = SPACE ∨ lx.lookahead = TAB)) :
    count_indent_loop n indent lx = (indent, lx) := by
  cases n with
  | zero => rfl
  | succ n => simp only [count_indent_loop, if_neg h]

theorem current_indent_of_le (s : Scanner) (h : s.stack_size ≤ MAX_INDENT_DEPTH) :
    current_indent s = some s.top := by
  unfold current_indent Scanner.top Scanner.read
  by_cases h0 : s.stack_size = 0
  · simp [h0]
  · have : s.stack_size - 1 < MAX_INDENT_DEPTH := by omega
    simp [h0, this]

theorem current_indent_eq_some (s : Scanner) (c : Nat) (h : current_indent s = some c) :
    c = s.top := by
  unfold current_indent Scanner.read at h
  unfold Scanner.top
  by_cases h0 : s.stack_size = 0
  · simp [h0] at h ⊢; exact h.symm
  · simp only [h0, if_false] at h ⊢
    split at h
    · exact (Option.some.inj h).symm
    · exact absurd h (by simp)

theorem step_refl (s : Scanner) : Step s s := Or.inl ⟨rfl, le_refl _⟩

theorem scan_dedent_step (s : Scanner) (lx : TSLexer) (valid : TokenType → Bool)
    (r : ScanResult) (h : scan_dedent s lx valid = some r) : Step s r.scanner := by
  unfold scan_dedent at h
  split at h
  · simp only [Option.bind_eq_some] at h
    obtain ⟨current, -, h⟩ := h
    split at h
    · simp only [Option.bind_eq_some] at h
      obtain ⟨dedents, -, h⟩ := h
      split at h
      · cases h
        exact Or.inl ⟨rfl, Nat.sub_le _ _⟩
      · cases h; exact step_refl s
    · cases h; exact step_refl s
  · cases h; exact step_refl s

theorem count_indent_lt (lx : TSLexer) : (count_indent 0 lx).1 < 2 ^ 16 :=
  count_indent_loop_lt _ _ _ (by norm_num)

theorem indent_width_lt (lx : TSLexer) : (indent_width lx).1 < 2 ^ 16 := by
  unfold indent_width
  split
  · exact count_indent_lt lx
  · exact Nat.mod_lt _ (by norm_num)

theorem scan_indent_step (s : Scanner) (lx : TSLexer) (valid : TokenType → Bool)
    (r : ScanResult) (h : scan_indent s lx valid = some r) : Step s r.scanner := by
  unfold scan_indent at h
  split at h
  · simp only [Option.bind_eq_some] at h
    obtain ⟨current, hcur, h⟩ := h
    have hc := current_indent_eq_some s current hcur
    subst hc
    split at h
    · rename_i hcond
      simp only [Option.map_eq_some'] at h
      obtain ⟨s2, hs2, h⟩ := h
      cases h
      split at hs2
      · rename_i hlt
        simp only [Scanner.write, if_pos hlt, Option.map_some', Option.some.injEq] at hs2
        subst hs2
        exact Or.inr ⟨_, hcond.1, indent_width_lt lx, hlt, rfl⟩
      · cases hs2; exact step_refl s
    · exact scan_dedent_step _ _ _ _ h
  · exact scan_dedent_step _ _ _ _ h

theorem scan_step (s : Scanner) (lx : TSLexer) (valid : TokenType → Bool)
    (r : ScanResult) (h : scan s lx valid = some r) : Step s r.scanner := by
  unfold scan at h
  split at h
  · cases h; exact step_refl s
  · split at h
    · cases h
      refine Or.inl ⟨rfl, ?_⟩
      show (if s.stack_size > 0 then s.stack_size - 1 else s.stack_size) ≤ s.stack_size
      split <;> omega
    · split at h
      · cases h; exact step_refl s
      · dsimp only at h
        split at h
        · simp only [Option.bind_eq_some] at h
          obtain ⟨c, -, h⟩ := h
          cases h
          refine Or.inl ⟨?_, ?_⟩
          · show (if _ then _ else _ : Scanner).indent_stack = _
            split <;> rfl
          · show (if _ then _ else _ : Scanner).stack_size ≤ _
            split <;> exact le_refl _
        · exact scan_indent_step _ _ _ _ h

theorem stackInv_create : StackInv create :=
  ⟨Nat.zero_le _, fun _ hi => absurd hi (Nat.not_lt_zero _),
    fun _ _ _ hj => absurd hj (Nat.not_lt_zero _)⟩

theorem top_lt_of_inv (s : Scanner) (hs : StackInv s) (i : Nat) (hi : i < s.stack_size) :
    s.indent_stack i ≤ s.top := by
  unfold Scanner.top
  have h0 : s.stack_size ≠ 0 := by omega
  rw [if_neg h0]
  by_cases hlast : i = s.stack_size - 1
  · rw [hlast]
  · exact Nat.le_of_lt (hs.2.2 i (s.stack_size - 1) (by omega) (by omega))

theorem stackInv_step (s s1 : Scanner) (hs : StackInv s) (h : Step s s1) : StackInv s1 := by
  rcases h with ⟨harr, hsz⟩ | ⟨indent, htop, hlt, hcap, rfl⟩
  · refine ⟨le_trans hsz hs.1, fun i hi => ?_, fun i j hij hj => ?_⟩
    · rw [harr]; exact hs.2.1 i (by omega)
    · rw [harr]; exact hs.2.2 i j hij (by omega)
  · refine ⟨?_, fun i hi => ?_, fun i j hij hj => ?_⟩
    · show s.stack_size + 1 ≤ MAX_INDENT_DEPTH
      omega
    · show 0 < (if i = s.stack_size then indent else s.indent_stack i) ∧
        (if i = s.stack_size then indent else s.indent_stack i) < 2 ^ 16
      have hi1 : i < s.stack_size + 1 := hi
      split
      · exact ⟨by omega, hlt⟩
      · exact hs.2.1 i (by omega)
    · have hj1 : j < s.stack_size + 1 := hj
      show (if i = s.stack_size then indent else s.indent_stack i) <
        (if j = s.stack_size then indent else s.indent_stack j)
      rw [if_neg (by omega : ¬ i = s.stack_size)]
      split
      · exact lt_of_le_of_lt (top_lt_of_inv s hs i (by omega)) htop
      · exact hs.2.2 i j hij (by omega)

theorem bytes_roundtrip (w : Nat) (hw : w < 2 ^ 16) :
    ((w &&& 0xFF) % 2 ^ 8) ||| ((((w >>> 8) &&& 0xFF) % 2 ^ 8) <<< 8) = w := by
  have h1 : w &&& 0xFF = w % 2 ^ 8 := Nat.and_pow_two_sub_one_eq_mod w 8
  have h2 : (w >>> 8) &&& 0xFF = (w >>> 8) % 2 ^ 8 := Nat.and_pow_two_sub_one_eq_mod _ 8
  rw [h1, h2, Nat.lor_comm, Nat.shiftLeft_eq, Nat.mul_comm,
    ← Nat.mul_add_lt_is_or (Nat.mod_lt _ (by norm_num)), Nat.shiftRight_eq_div_pow]
  omega

/-- The bytes `serialize` produces for a stack within capacity. -/
theorem serialize_loop_spec (s : Scanner) (hk : s.stack_size ≤ MAX_INDENT_DEPTH)
    (n i : Nat) (buffer : List Nat) (hi : i + n = s.stack_size)
    (hlen : buffer.length = 2 + 2 * i) :
    ∃ out, serialize_loop s n i buffer = some out ∧ out.length = 2 + 2 * s.stack_size ∧
      (∀ x, x < buffer.length → out.getD x 0 = buffer.getD x 0) ∧
      ∀ x, i ≤ x → x < s.stack_size →
        out.getD (2 + 2 * x) 0 = s.indent_stack x &&& 0xFF ∧
        out.getD (3 + 2 * x) 0 = (s.indent_stack x >>> 8) &&& 0xFF := by
  induction n generalizing i buffer with
  | zero =>
    refine ⟨buffer, rfl, by rw [hlen]; omega, fun _ _ => rfl, fun x h1 h2 => ?_⟩
    omega
  | succ n ih =>
    have hcap : MAX_INDENT_DEPTH = 100 := rfl
    have hbuf : TREE_SITTER_SERIALIZATION_BUFFER_SIZE = 1024 := rfl
    have hcond : i < s.stack_size ∧ buffer.length < TREE_SITTER_SERIALIZATION_BUFFER_SIZE - 2 := by
      constructor <;> omega
    have hread : s.read i = some (s.indent_stack i) := by
      unfold Scanner.read; rw [if_pos (by omega)]
    have hmod : (i + 1) % 2 ^ 8 = i + 1 := Nat.mod_eq_of_lt (by omega)
    obtain ⟨out, hout, hl, hpre, hent⟩ := ih (i + 1)
      (buffer ++ [s.indent_stack i &&& 0xFF, (s.indent_stack i >>> 8) &&& 0xFF])
      (by omega) (by simp [hlen]; omega)
    refine ⟨out, ?_, hl, fun x hx => ?_, fun x h1 h2 => ?_⟩
    · unfold serialize_loop
      rw [if_pos hcond, hread, Option.some_bind, hmod]
      exact hout
    · rw [hpre x (by simp; omega), List.getD_append _ _ _ _ hx]
    · by_cases hxi : x = i
      · subst hxi
        constructor
        · rw [hpre _ (by simp; omega), List.getD_append_right _ _ _ _ (by omega)]
          simp [hlen]
        · rw [hpre _ (by simp; omega), List.getD_append_right _ _ _ _ (by omega)]
          have : 3 + 2 * x - buffer.length = 1 := by omega
          simp [this]
      · exact hent x (by omega) h2

theorem serialize_spec (s : Scanner) (hk : s.stack_size ≤ MAX_INDENT_DEPTH) :
    ∃ out, serialize s = some out ∧ out.length = 2 + 2 * s.stack_size ∧
      out.getD 0 0 = s.stack_size ∧ out.getD 1 0 = s.dedent_count % 2 ^ 8 ∧
      ∀ x, x < s.stack_size →
        out.getD (2 + 2 * x) 0 = s.indent_stack x &&& 0xFF ∧
        out.getD (3 + 2 * x) 0 = (s.indent_stack x >>> 8) &&& 0xFF := by
  have hcap : MAX_INDENT_DEPTH = 100 := rfl
  obtain ⟨out, hout, hl, hpre, hent⟩ := serialize_loop_spec s hk s.stack_size 0
    [s.stack_size % 2 ^ 8, s.dedent_count % 2 ^ 8] (by omega) (by simp)
  refine ⟨out, hout, hl, ?_, ?_, fun x hx => hent x (Nat.zero_le _) hx⟩
  · rw [hpre 0 (by simp)]
    simp only [List.getD_cons_zero]
    exact Nat.mod_eq_of_lt (by omega)
  · rw [hpre 1 (by simp)]
    rfl

/-- The loop of `deserialize` on a buffer that holds every entry the depth announces. -/
theorem deserialize_loop_spec (buffer : List Nat) (n j : Nat) (t : Scanner)
    (hk : t.stack_size ≤ MAX_INDENT_DEPTH) (hj : j + n = t.stack_size)
    (hlen : 2 + 2 * t.stack_size ≤ buffer.length) :
    ∃ t1, deserialize_loop buffer n j (2 + 2 * j) t = some t1 ∧
      t1.stack_size = t.stack_size ∧ t1.dedent_count = t.dedent_count ∧
      (∀ x, x < j → t1.indent_stack x = t.indent_stack x) ∧
      (∀ x, t.stack_size ≤ x → t1.indent_stack x = t.indent_stack x) ∧
      ∀ x, j ≤ x → x < t.stack_size →
        t1.indent_stack x =
          (buffer.getD (2 + 2 * x) 0 % 2 ^ 8) ||| ((buffer.getD (3 + 2 * x) 0 % 2 ^ 8) <<< 8) := by
  induction n generalizing j t with
  | zero =>
    exact ⟨t, rfl, rfl, rfl, fun _ _ => rfl, fun _ _ => rfl, fun x h1 h2 => by omega⟩
  | succ n ih =>
    have hcap : MAX_INDENT_DEPTH = 100 := rfl
    have hcond : j < t.stack_size ∧ 2 + 2 * j + 1 < buffer.length := by constructor <;> omega
    have hmod : (j + 1) % 2 ^ 8 = j + 1 := Nat.mod_eq_of_lt (by omega)
    have hw : ∀ v, t.write j v =
        some { t with indent_stack := fun x => if x = j then v else t.indent_stack x } := by
      intro v; unfold Scanner.write; rw [if_pos (by omega)]
    obtain ⟨t1, h1, hs, hd, hlo, hhi, hent⟩ := ih (j + 1)
      { t with indent_stack := fun x => if x = j then
          (buffer.getD (2 + 2 * j) 0 % 2 ^ 8) ||| ((buffer.getD (2 + 2 * j + 1) 0 % 2 ^ 8) <<< 8)
          else t.indent_stack x } hk (by simpa using (by omega : j + 1 + n = t.stack_size)) hlen
    refine ⟨t1, ?_, hs, hd, fun x hx => ?_, fun x hx => ?_, fun x hx1 hx2 => ?_⟩
    · unfold deserialize_loop
      rw [if_pos hcond, hw, Option.some_bind, hmod]
      have : 2 + 2 * j + 2 = 2 + 2 * (j + 1) := by omega
      rw [this]
      exact h1
    · rw [hlo x (by omega)]
      show (if x = j then _ else _) = _
      rw [if_neg (by omega)]
    · rw [hhi x hx]
      show (if x = j then _ else _) = _
      rw [if_neg (by have : j < t.stack_size := hcond.1; omega)]
    · by_cases hxj : x = j
      · subst hxj
        rw [hlo x (by omega)]
        show (if x = x then _ else _) = _
        rw [if_pos rfl]
        have : 2 + 2 * x + 1 = 3 + 2 * x := by omega
        rw [this]
      · exact hent x (by omega) hx2

theorem roundtrip_core (s t : Scanner) (hk : s.stack_size ≤ MAX_INDENT_DEPTH)
    (hw : ∀ i, i < s.stack_size → s.indent_stack i < 2 ^ 16) :
    ∃ buffer t1, serialize s = some buffer ∧ deserialize t buffer = some t1 ∧
      t1.stack_size = s.stack_size ∧ t1.dedent_count = s.dedent_count % 2 ^ 8 ∧
      ∀ i, i < s.stack_size → t1.indent_stack i = s.indent_stack i := by
  obtain ⟨out, hout, hl, h0, h1, hent⟩ := serialize_spec s hk
  have hcap : MAX_INDENT_DEPTH = 100 := rfl
  have hs0 : out.getD 0 0 % 2 ^ 8 = s.stack_size := by
    rw [h0]; exact Nat.mod_eq_of_lt (by omega)
  have hd0 : out.getD 1 0 % 2 ^ 8 = s.dedent_count % 2 ^ 8 := by
    rw [h1, Nat.mod_mod]
  obtain ⟨t1, ht1, hsz, hdc, -, -, hdec⟩ := deserialize_loop_spec out s.stack_size 0
    { indent_stack := t.indent_stack, stack_size := s.stack_size,
      dedent_count := s.dedent_count % 2 ^ 8 }
    hk (by simp) (by simp [hl])
  refine ⟨out, t1, hout, ?_, hsz, hdc, fun i hi => ?_⟩
  · unfold deserialize
    have hne : ¬ out.length = 0 := by omega
    have hne1 : ¬ 1 ≥ out.length := by omega
    simp only [hne, hne1, if_false, hs0, hd0]
    exact ht1
  · rw [hdec i (Nat.zero_le _) hi, (hent i hi).1, (hent i hi).2]
    exact bytes_roundtrip _ (hw i hi)

theorem roundtrip_spec (s t : Scanner) (hk : s.stack_size ≤ MAX_INDENT_DEPTH)
    (hc : s.dedent_count < 2 ^ 8) (hw : ∀ i, i < s.stack_size → s.indent_stack i < 2 ^ 16) :
    ∃ buffer t1, serialize s = some buffer ∧ deserialize t buffer = some t1 ∧
      t1.Equiv s := by
  obtain ⟨buffer, t1, h1, h2, hsz, hdc, hent⟩ := roundtrip_core s t hk hw
  refine ⟨buffer, t1, h1, h2, hsz, ?_, fun i hi => hent i (by rw [hsz] at hi; exact hi)⟩
  rw [hdc]
  exact Nat.mod_eq_of_lt hc

theorem equiv_refl (a : Scanner) : a.Equiv a := ⟨rfl, rfl, fun _ _ => rfl⟩

theorem equiv_symm {a b : Scanner} (h : a.Equiv b) : b.Equiv a :=
  ⟨h.1.symm, h.2.1.symm, fun i hi => (h.2.2 i (by rw [h.1]; exact hi)).symm⟩

theorem read_congr {a b : Scanner} (h : a.Equiv b) (i : Nat) (hi : i < a.stack_size) :
    b.read i = a.read i := by
  unfold Scanner.read
  rw [h.2.2 i hi]

theorem current_indent_congr {a b : Scanner} (h : a.Equiv b) :
    current_indent b = current_indent a := by
  unfold current_indent
  rw [← h.1]
  split
  · rfl
  · exact read_congr h _ (by omega)

theorem count_dedents_congr {a b : Scanner} (h : a.Equiv b) (col n d : Nat)
    (hn : n ≤ a.stack_size) : count_dedents b col n d = count_dedents a col n d := by
  induction n generalizing d with
  | zero => rfl
  | succ n ih =>
    unfold count_dedents
    rw [read_congr h n (by omega)]
    cases a.read n with
    | none => rfl
    | some w =>
      simp only [Option.some_bind]
      rw [ih _ (by omega)]

theorem agree_refl_of_equiv {a b : Scanner} (h : a.Equiv b) (ret : Bool) (lx : TSLexer) :
    ScanResult.Agree ⟨ret, a, lx⟩ ⟨ret, b, lx⟩ := ⟨rfl, rfl, h⟩

theorem scan_dedent_congr {a b : Scanner} (h : a.Equiv b) (lx : TSLexer)
    (valid : TokenType → Bool) (r1 : ScanResult) (h1 : scan_dedent a lx valid = some r1) :
    ∃ r2, scan_dedent b lx valid = some r2 ∧ r1.Agree r2 := by
  unfold scan_dedent at h1 ⊢
  dsimp only at h1 ⊢
  rw [current_indent_congr h, ← h.1, count_dedents_congr h _ _ _ (le_refl _)]
  split at h1
  · rename_i hv
    rw [if_pos hv]
    cases hcur : current_indent a with
    | none => rw [hcur] at h1; cases h1
    | some current =>
      rw [hcur] at h1
      simp only [Option.some_bind] at h1 ⊢
      split at h1
      · rename_i hc
        rw [if_pos hc]
        cases hcnt : count_dedents a (lx.get_column % 2 ^ 16) a.stack_size 0 with
        | none => rw [hcnt] at h1; cases h1
        | some dedents =>
          rw [hcnt] at h1
          simp only [Option.some_bind] at h1 ⊢
          split at h1
          · rename_i hd
            rw [if_pos hd]
            cases h1
            exact ⟨_, rfl, rfl, rfl, rfl, rfl, fun i hi => h.2.2 i (by
              have : i < a.stack_size - 1 := hi
              omega)⟩
          · rename_i hd
            rw [if_neg hd]
            cases h1
            exact ⟨_, rfl, agree_refl_of_equiv h _ _⟩
      · rename_i hc
        rw [if_neg hc]
        cases h1
        exact ⟨_, rfl, agree_refl_of_equiv h _ _⟩
  · rename_i hv
    rw [if_neg hv]
    cases h1
    exact ⟨_, rfl, agree_refl_of_equiv h _ _⟩

theorem scan_indent_congr {a b : Scanner} (h : a.Equiv b) (lx : TSLexer)
    (valid : TokenType → Bool) (r1 : ScanResult) (h1 : scan_indent a lx valid = some r1) :
    ∃ r2, scan_indent b lx valid = some r2 ∧ r1.Agree r2 := by
  unfold scan_indent at h1 ⊢
  rw [current_indent_congr h, ← h.1]
  split at h1
  · rename_i hv
    rw [if_pos hv]
    cases hcur : current_indent a with
    | none => rw [hcur] at h1; cases h1
    | some current =>
      rw [hcur] at h1
      simp only [Option.some_bind] at h1 ⊢
      split at h1
      · rename_i hc
        rw [if_pos hc]
        split at h1
        · rename_i hlt
          rw [if_pos hlt]
          simp only [Scanner.write, if_pos hlt, Option.map_some', Option.some.injEq] at h1 ⊢
          cases h1
          refine ⟨_, rfl, rfl, rfl, ?_, h.2.1, fun i hi => ?_⟩
          · show a.stack_size + 1 = a.stack_size + 1
            rfl
          · have hi1 : i < a.stack_size + 1 := hi
            show (if i = a.stack_size then _ else a.indent_stack i) =
              (if i = a.stack_size then _ else b.indent_stack i)
            split
            · rfl
            · exact h.2.2 i (by omega)
        · rename_i hlt
          rw [if_neg hlt]
          simp only [Option.map_some', Option.some.injEq] at h1 ⊢
          cases h1
          exact ⟨_, rfl, agree_refl_of_equiv h _ _⟩
      · rename_i hc
        rw [if_neg hc]
        exact scan_dedent_congr h _ _ _ h1
  · rename_i hv
    rw [if_neg hv]
    exact scan_dedent_congr h _ _ _ h1

theorem scan_congr {a b : Scanner} (h : a.Equiv b) (lx : TSLexer)
    (valid : TokenType → Bool) (r1 : ScanResult) (h1 : scan a lx valid = some r1) :
    ∃ r2, scan b lx valid = some r2 ∧ r1.Agree r2 := by
  unfold scan at h1 ⊢
  rw [current_indent_congr h, ← h.1, ← h.2.1]
  split at h1
  · rename_i hv
    rw [if_pos hv]
    cases h1
    exact ⟨_, rfl, agree_refl_of_equiv h _ _⟩
  · rename_i hv
    rw [if_neg hv]
    split at h1
    · rename_i hp
      rw [if_pos hp]
      cases h1
      refine ⟨_, rfl, rfl, rfl, rfl, rfl, fun i hi => h.2.2 i ?_⟩
      have hi1 : i < (if a.stack_size > 0 then a.stack_size - 1 else a.stack_size) := hi
      split at hi1 <;> omega
    · rename_i hp
      rw [if_neg hp]
      split at h1
      · rename_i hs
        rw [if_pos hs]
        cases h1
        exact ⟨_, rfl, agree_refl_of_equiv h _ _⟩
      · rename_i hs
        rw [if_neg hs]
        dsimp only at h1 ⊢
        split at h1
        · rename_i hn
          rw [if_pos hn]
          cases hcur : current_indent a with
          | none => rw [hcur] at h1; cases h1
          | some current =>
            rw [hcur] at h1
            simp only [Option.some_bind, Option.some.injEq] at h1 ⊢
            cases h1
            refine ⟨_, rfl, rfl, rfl, ?_⟩
            dsimp only
            split
            · exact ⟨rfl, rfl, h.2.2⟩
            · exact h
        · rename_i hn
          rw [if_neg hn]
          exact scan_indent_congr h _ _ _ h1

theorem stackInv_of_reachable (s : Scanner) (h : Reachable s) : StackInv s := by
  induction h with
  | create => exact stackInv_create
  | scan s lx valid r _ hscan ih => exact stackInv_step s r.scanner ih (scan_step s lx valid r hscan)
  | restore s t buffer t1 _ hser hde ih =>
    obtain ⟨b, t2, h1, h2, hsz, -, hent⟩ :=
      roundtrip_core s t ih.1 (fun i hi => (ih.2.1 i hi).2)
    rw [hser] at h1
    cases h1
    rw [hde] at h2
    cases h2
    refine ⟨by rw [hsz]; exact ih.1, fun i hi => ?_, fun i j hij hj => ?_⟩
    · rw [hsz] at hi
      rw [hent i hi]
      exact ih.2.1 i hi
    · rw [hsz] at hj
      rw [hent i (by omega), hent j hj]
      exact ih.2.2 i j hij hj

/-- C1: in every state reachable from `create` through calls of `scan` (any cursor, any
accepted-symbol set), optionally interleaved with `serialize` followed by `deserialize`,
the stored widths `indent_stack[0 .. stack_size)` are strictly increasing from bottom to
top and each is greater than the implicit base 0. -/
theorem stack_strictly_increasing (s : Scanner) (h : Reachable s) :
    (∀ i j, i < j → j < s.stack_size → s.indent_stack i < s.indent_stack j) ∧
      ∀ i, i < s.stack_size → 0 < s.indent_stack i :=
  ⟨(stackInv_of_reachable s h).2.2, fun i hi => ((stackInv_of_reachable s h).2.1 i hi).1⟩

theorem two_levels_reachable : Reachable two_levels :=
  Reachable.scan (create.push 2) (start [120] 4 NEWLINE) (only INDENT) ⟨true, two_levels, _⟩
    (Reachable.scan create (start [120] 2 NEWLINE) (only INDENT) ⟨true, create.push 2, _⟩
      Reachable.create rfl) rfl

/-- Witness of C1: the state with stack `[2, 4]`, reached by two INDENT scans. -/
theorem stack_strictly_increasing_witness :
    Reachable two_levels ∧ two_levels.stack = [2, 4] ∧
      (∀ i j, i < j → j < two_levels.stack_size →
        two_levels.indent_stack i < two_levels.indent_stack j) ∧
      ∀ i, i < two_levels.stack_size → 0 < two_levels.indent_stack i :=
  ⟨two_levels_reachable, rfl, stack_strictly_increasing two_levels two_levels_reachable⟩

theorem scan_all_congr (calls : List (TSLexer × (TokenType → Bool))) (a b : Scanner)
    (h : a.Equiv b) : scan_all a calls = scan_all b calls := by
  induction calls generalizing a b with
  | nil => rfl
  | cons c calls ih =>
    obtain ⟨lx, valid⟩ := c
    unfold scan_all
    cases ha : scan a lx valid with
    | none =>
      cases hb : scan b lx valid with
      | none => rfl
      | some r2 =>
        obtain ⟨r1, hr1, -⟩ := scan_congr (equiv_symm h) lx valid r2 hb
        rw [ha] at hr1
        cases hr1
    | some r1 =>
      obtain ⟨r2, hr2, hret, hlx, heq⟩ := scan_congr h lx valid r1 ha
      rw [hr2]
      simp only [Option.some_bind]
      rw [ih r1.scanner r2.scanner heq, hret, hlx]

/-- C2: for every state `s` of depth at most 100 (any 8-bit counter, any 16-bit widths)
and every target instance `t`, `deserialize` of the bytes written by `serialize s` leaves
`t` with the depth, the counter and the widths at positions below the depth of `s`, and
every later sequence of calls of `scan` shows the host the same on both. -/
theorem serialize_deserialize_roundtrip (s t : Scanner)
    (hk : s.stack_size ≤ MAX_INDENT_DEPTH) (hc : s.dedent_count < 2 ^ 8)
    (hw : ∀ i, i < s.stack_size → s.indent_stack i < 2 ^ 16) :
    ∃ buffer t1, serialize s = some buffer ∧ deserialize t buffer = some t1 ∧
      t1.stack_size = s.stack_size ∧ t1.dedent_count = s.dedent_count ∧
      (∀ i, i < s.stack_size → t1.indent_stack i = s.indent_stack i) ∧
      ∀ calls, scan_all t1 calls = scan_all s calls := by
  obtain ⟨buffer, t1, h1, h2, heq⟩ := roundtrip_spec s t hk hc hw
  exact ⟨buffer, t1, h1, h2, heq.1, heq.2.1,
    fun i hi => heq.2.2 i (by rw [heq.1]; exact hi), fun calls => scan_all_congr calls t1 s heq⟩

/-- Witness of C2: the state with stack `[2, 4]` restored into an instance that held
other widths. -/
theorem serialize_deserialize_roundtrip_witness :
    two_levels.stack_size ≤ MAX_INDENT_DEPTH ∧ two_levels.dedent_count < 2 ^ 8 ∧
      ∃ buffer t1, serialize two_levels = some buffer ∧
        deserialize ((create.push 7).push 9) buffer = some t1 ∧
        t1.stack_size = two_levels.stack_size ∧ t1.dedent_count = two_levels.dedent_count ∧
        (∀ i, i < two_levels.stack_size → t1.indent_stack i = two_levels.indent_stack i) ∧
        ∀ calls, scan_all t1 calls = scan_all two_levels calls :=
  ⟨by decide, by decide,
    serialize_deserialize_roundtrip two_levels ((create.push 7).push 9) (by decide) (by decide)
      (by decide)⟩

theorem not_blank_of_not_space {c : Nat} (h : is_space c = false) :
    ¬ (c = SPACE ∨ c = TAB) := by
  intro hc
  rcases hc with rfl | rfl <;> simp [is_space, is_blank, is_break, SPACE, TAB, LF, CR] at h

theorem not_break_of_not_space {c : Nat} (h : is_space c = false) :
    ¬ (c = LF ∨ c = CR) := by
  intro hc
  rcases hc with rfl | rfl <;> simp [is_space, is_blank, is_break, SPACE, TAB, LF, CR] at h

theorem skip_blanks_of_not_blank (lx : TSLexer)
    (h : ¬ (lx.lookahead = SPACE ∨ lx.lookahead = TAB)) : skip_blanks lx = lx := by
  unfold skip_blanks
  cases lx.rest.length with
  | zero => rfl
  | succ n => simp only [skip_blanks_loop, if_neg h]

theorem count_indent_of_not_blank (indent : Nat) (lx : TSLexer)
    (h : ¬ (lx.lookahead = SPACE ∨ lx.lookahead = TAB)) : count_indent indent lx = (indent, lx) :=
  count_indent_loop_of_not_blank _ _ _ h

theorem skip_lines_of_not_break (lx : TSLexer)
    (h : ¬ (lx.lookahead = LF ∨ lx.lookahead = CR)) : skip_lines lx = (false, 0, lx) := by
  unfold skip_lines
  cases lx.rest.length with
  | zero => rfl
  | succ n => simp only [skip_lines_loop, if_neg h]

/-- On a character that is no space, tab or line break, with no pending DEDENT to emit and
no string content wanted, `scan` is its INDENT and DEDENT branches. -/
theorem scan_at_content (s : Scanner) (lx : TSLexer) (valid : TokenType → Bool)
    (hE : valid ERROR_SENTINEL = false) (hP : ¬ (valid DEDENT = true ∧ s.dedent_count > 0))
    (hS : valid STRING_CONTENT = false) (hla : is_space lx.lookahead = false) :
    scan s lx valid = scan_indent s lx valid := by
  unfold scan
  rw [if_neg (by simp [hE]), if_neg hP, if_neg (by simp [hS])]
  simp only [skip_blanks_of_not_blank lx (not_blank_of_not_space hla),
    skip_lines_of_not_break lx (not_break_of_not_space hla)]
  simp

/-- The width of the INDENT branch on a character that is no space or tab: the column,
narrowed to 16 bits. -/
theorem indent_width_at_content (lx : TSLexer) (hla : is_space lx.lookahead = false) :
    indent_width lx = (lx.column % 2 ^ 16, lx) := by
  unfold indent_width TSLexer.get_column
  split
  · rename_i h0
    rw [count_indent_of_not_blank 0 lx (not_blank_of_not_space hla), h0]
    rfl
  · rfl

/-- C10, amended: with a positive pending-dedent counter `n`, DEDENT acceptable and
ERROR_SENTINEL not acceptable (whatever else is acceptable), `scan` emits DEDENT, sets
the counter to `n - 1`, pops one stack level when the stack is not empty and leaves an
empty stack empty, and changes nothing of the cursor but the result symbol. -/
theorem pending_dedent_step (s : Scanner) (lx : TSLexer) (valid : TokenType → Bool)
    (hn : 0 < s.dedent_count) (hD : valid DEDENT = true) (hE : valid ERROR_SENTINEL = false) :
    ∃ r, scan s lx valid = some r ∧ r.returned = true ∧
      r.lexer = { lx with result_symbol := DEDENT } ∧
      r.scanner.dedent_count = s.dedent_count - 1 ∧
      r.scanner.indent_stack = s.indent_stack ∧
      (0 < s.stack_size → r.scanner.stack_size + 1 = s.stack_size) ∧
      (s.stack_size = 0 → r.scanner.stack_size = 0) := by
  refine ⟨_, scan_of_pending s lx valid hE hD hn, rfl, rfl, rfl, rfl, fun h => ?_, fun h => ?_⟩
  · show (if s.stack_size > 0 then s.stack_size - 1 else s.stack_size) + 1 = s.stack_size
    rw [if_pos h]; omega
  · show (if s.stack_size > 0 then s.stack_size - 1 else s.stack_size) = 0
    rw [h]; rfl

/-- Witness of C10: a pending DEDENT on the stack `[2, 4]`. -/
theorem pending_dedent_step_witness :
    0 < ({ two_levels with dedent_count := 1 } : Scanner).dedent_count ∧
      ∃ r, scan { two_levels with dedent_count := 1 } (start [120] 0 NEWLINE) (only DEDENT)
          = some r ∧ r.returned = true ∧
        r.lexer = { start [120] 0 NEWLINE with result_symbol := DEDENT } ∧
        r.scanner.dedent_count = ({ two_levels with dedent_count := 1 } : Scanner).dedent_count - 1 ∧
        r.scanner.indent_stack = ({ two_levels with dedent_count := 1 } : Scanner).indent_stack ∧
        (0 < ({ two_levels with dedent_count := 1 } : Scanner).stack_size →
          r.scanner.stack_size + 1 = ({ two_levels with dedent_count := 1 } : Scanner).stack_size) ∧
        (({ two_levels with dedent_count := 1 } : Scanner).stack_size = 0 →
          r.scanner.stack_size = 0) :=
  ⟨by decide, pending_dedent_step _ _ _ (by decide) rfl rfl⟩

/-- Counterexample to C10 as stated: with counter 1 on the empty stack, `scan` emits
DEDENT and the depth is 0 before and after, so no level is popped. -/
theorem pending_dedent_on_empty_stack :
    (deserialize create [0, 1]).map (fun s => (s.stack_size, s.dedent_count)) = some (0, 1) ∧
      pending_on_empty.dedent_count = 1 ∧ pending_on_empty.stack_size = 0 ∧
      (scan pending_on_empty (start [120] 0 NEWLINE) (only DEDENT)).map
          (fun r => (r.returned, r.lexer.result_symbol, r.scanner.stack_size,
            r.scanner.dedent_count)) = some (true, DEDENT, 0, 0) := by
  decide

theorem stack_pairwise (s : Scanner)
    (hinc : ∀ i j, i < j → j < s.stack_size → s.indent_stack i < s.indent_stack j) :
    s.stack.Pairwise (fun a b => a < b) := by
  unfold Scanner.stack
  rw [List.pairwise_map]
  refine List.Pairwise.imp_of_mem (fun {a b} _ hb hab => ?_) (List.pairwise_lt_range s.stack_size)
  exact hinc a b hab (List.mem_range.1 hb)

theorem filter_le_of_sorted (c : Nat) (l : List Nat) (h : l.Pairwise (fun a b => a < b)) :
    l.filter (fun w => decide (w ≤ c)) =
      l.take (l.length - l.countP (fun w => decide (c < w))) := by
  induction l with
  | nil => rfl
  | cons a l ih =>
    rw [List.pairwise_cons] at h
    have hle : l.countP (fun w => decide (c < w)) ≤ l.length := List.countP_le_length _
    by_cases hac : a ≤ c
    · have h2 : ¬ c < a := by omega
      have hcnt : (a :: l).countP (fun w => decide (c < w)) =
          l.countP (fun w => decide (c < w)) := by
        simp [List.countP_cons, h2]
      have hfil : (a :: l).filter (fun w => decide (w ≤ c)) =
          a :: l.filter (fun w => decide (w ≤ c)) := by
        simp [List.filter_cons, hac]
      rw [hfil, ih h.2, hcnt, List.length_cons]
      have : l.length + 1 - l.countP (fun w => decide (c < w)) =
          (l.length - l.countP (fun w => decide (c < w))) + 1 := by omega
      rw [this, List.take_succ_cons]
    · have hall : ∀ w ∈ a :: l, decide (c < w) = true := by
        intro w hw
        rcases List.mem_cons.1 hw with rfl | hw
        · simpa using hac
        · have := h.1 w hw
          simp only [decide_eq_true_eq]; omega
      have hcnt : (a :: l).countP (fun w => decide (c < w)) = (a :: l).length :=
        List.countP_eq_length.2 hall
      rw [hcnt, Nat.sub_self, List.take_zero]
      rw [List.filter_eq_nil_iff]
      intro w hw
      have := hall w hw
      simp only [decide_eq_true_eq] at this ⊢
      omega

theorem count_dedents_sorted (s : Scanner) (c : Nat) (hk : s.stack_size ≤ MAX_INDENT_DEPTH)
    (hinc : ∀ i j, i < j → j < s.stack_size → s.indent_stack i < s.indent_stack j)
    (n d : Nat) (hn : n ≤ s.stack_size) (hd : d + n < 2 ^ 8) :
    count_dedents s c n d =
      some (d + ((List.range n).map s.indent_stack).countP (fun w => decide (c < w))) := by
  induction n generalizing d with
  | zero => rfl
  | succ n ih =>
    have hcap : MAX_INDENT_DEPTH = 100 := rfl
    have hread : s.read n = some (s.indent_stack n) := by
      unfold Scanner.read; rw [if_pos (by omega)]
    unfold count_dedents
    rw [hread, Option.some_bind, List.range_succ, List.map_append, List.countP_append]
    by_cases hgt : s.indent_stack n > c
    · rw [if_pos hgt, Nat.mod_eq_of_lt (by omega), ih (d + 1) (by omega) (by omega)]
      have h1 : ([n].map s.indent_stack).countP (fun w => decide (c < w)) = 1 := by
        simp [List.countP_cons, hgt]
      rw [h1]
      congr 1
      omega
    · rw [if_neg hgt]
      have h0 : ((List.range n).map s.indent_stack).countP (fun w => decide (c < w)) = 0 := by
        rw [List.countP_eq_zero]
        intro w hw
        obtain ⟨i, hi, rfl⟩ := List.mem_map.1 hw
        have hi1 := List.mem_range.1 hi
        have := hinc i n hi1 (by omega)
        simp only [decide_eq_true_eq]
        omega
      have h1 : ([n].map s.indent_stack).countP (fun w => decide (c < w)) = 0 := by
        simp [List.countP_cons, hgt]
      rw [h0, h1]
      rfl

theorem count_dedents_eq_levels_above (s : Scanner) (c : Nat)
    (hk : s.stack_size ≤ MAX_INDENT_DEPTH)
    (hinc : ∀ i j, i < j → j < s.stack_size → s.indent_stack i < s.indent_stack j) :
    count_dedents s c s.stack_size 0 = some (levels_above s c) := by
  have hcap : MAX_INDENT_DEPTH = 100 := rfl
  rw [count_dedents_sorted s c hk hinc s.stack_size 0 (le_refl _) (by omega), Nat.zero_add]
  rfl

theorem levels_above_le (s : Scanner) (c : Nat) : levels_above s c ≤ s.stack_size := by
  unfold levels_above
  exact le_trans (List.countP_le_length _) (le_of_eq (stack_length s))

theorem stack_of_pop (s s1 : Scanner) (n : Nat) (harr : s1.indent_stack = s.indent_stack)
    (hsz : s1.stack_size = s.stack_size - n) : s1.stack = s.stack.take (s.stack_size - n) := by
  unfold Scanner.stack
  rw [harr, hsz, ← List.map_take, List.take_range, Nat.min_eq_left (Nat.sub_le _ _)]

theorem accept_of_unmarked (lx : TSLexer) (h : lx.marked = none) :
    lx.accept = { lx with token := [], marked := none } := by
  unfold TSLexer.accept
  rw [h]

/-- A run of pending DEDENT tokens: `n` calls, each emitting DEDENT, popping one level
(none from an empty stack) and leaving the cursor where it is. -/
theorem scan_times_pending (valid : TokenType → Bool) (hD : valid DEDENT = true)
    (hE : valid ERROR_SENTINEL = false) (n : Nat) (s : Scanner) (lx : TSLexer)
    (hn : n ≤ s.dedent_count) (hm : lx.marked = none) :
    ∃ s1 lx1, scan_times valid n s lx = some (List.replicate n (true, DEDENT), s1, lx1) ∧
      s1.indent_stack = s.indent_stack ∧ s1.stack_size = s.stack_size - n ∧
      s1.dedent_count = s.dedent_count - n ∧ lx1.rest = lx.rest ∧ lx1.column = lx.column ∧
      lx1.marked = none := by
  induction n generalizing s lx with
  | zero => exact ⟨s, lx, rfl, rfl, rfl, rfl, rfl, rfl, hm⟩
  | succ n ih =>
    have hstep := scan_of_pending s lx valid hE hD (by omega)
    have hm1 : ({ lx with result_symbol := DEDENT } : TSLexer).marked = none := hm
    obtain ⟨s1, lx1, hrun, harr, hsz, hdc, hrest, hcol, hmk⟩ := ih
      { s with
        dedent_count := s.dedent_count - 1
        stack_size := if s.stack_size > 0 then s.stack_size - 1 else s.stack_size }
      ({ lx with result_symbol := DEDENT } : TSLexer).accept
      (by show n ≤ s.dedent_count - 1; omega)
      (by rw [accept_of_unmarked _ hm1])
    refine ⟨s1, lx1, ?_, harr, ?_, ?_, ?_, ?_, hmk⟩
    · unfold scan_times
      rw [hstep, Option.some_bind, hrun]
      rfl
    · rw [hsz]
      show (if s.stack_size > 0 then s.stack_size - 1 else s.stack_size) - n = _
      split <;> omega
    · rw [hdc]
      show s.dedent_count - 1 - n = _
      omega
    · rw [hrest, accept_of_unmarked _ hm1]
    · rw [hcol, accept_of_unmarked _ hm1]

/-- The INDENT branch emits nothing when the column does not exceed the top. -/
theorem scan_indent_of_le (s : Scanner) (lx : TSLexer) (valid : TokenType → Bool)
    (hk : s.stack_size ≤ MAX_INDENT_DEPTH) (hla : is_space lx.lookahead = false)
    (hc : lx.column % 2 ^ 16 ≤ s.top) : scan_indent s lx valid = scan_dedent s lx valid := by
  unfold scan_indent
  split
  · rw [current_indent_of_le s hk, Option.some_bind, indent_width_at_content lx hla]
    rw [if_neg (by
      intro h
      have : lx.column % 2 ^ 16 > s.top := h.1
      omega)]
  · rfl

/-- The DEDENT branch below the top of a sorted stack. -/
theorem scan_dedent_below_top (s : Scanner) (lx : TSLexer) (valid : TokenType → Bool)
    (hk : s.stack_size ≤ MAX_INDENT_DEPTH)
    (hinc : ∀ i j, i < j → j < s.stack_size → s.indent_stack i < s.indent_stack j)
    (hD : valid DEDENT = true) (hc : lx.column % 2 ^ 16 < s.top) :
    0 < levels_above s (lx.column % 2 ^ 16) ∧
    scan_dedent s lx valid = some ⟨true,
      { s with
        dedent_count := levels_above s (lx.column % 2 ^ 16) - 1
        stack_size := s.stack_size - 1 },
      { lx with result_symbol := DEDENT }⟩ := by
  have hpos : 0 < s.stack_size := by
    by_contra h0
    have : s.top = 0 := by unfold Scanner.top; rw [if_pos (by omega)]
    omega
  have hm : 0 < levels_above s (lx.column % 2 ^ 16) := by
    unfold levels_above
    rw [List.countP_pos_iff]
    refine ⟨s.top, ?_, by simpa using hc⟩
    unfold Scanner.stack Scanner.top
    rw [if_neg (by omega)]
    exact List.mem_map.2 ⟨s.stack_size - 1, List.mem_range.2 (by omega), rfl⟩
  refine ⟨hm, ?_⟩
  unfold scan_dedent
  rw [if_pos hD]
  simp only [TSLexer.get_column]
  rw [current_indent_of_le s hk, Option.some_bind, if_pos ⟨hc, hpos⟩,
    count_dedents_eq_levels_above s _ hk hinc, Option.some_bind, if_pos hm]

/-- The DEDENT branch emits nothing when the column is not below the top. -/
theorem scan_dedent_of_ge (s : Scanner) (lx : TSLexer) (valid : TokenType → Bool)
    (hk : s.stack_size ≤ MAX_INDENT_DEPTH) (hc : s.top ≤ lx.column % 2 ^ 16) :
    scan_dedent s lx valid = some ⟨false, s, lx⟩ := by
  unfold scan_dedent
  split
  · simp only [TSLexer.get_column]
    rw [current_indent_of_le s hk, Option.some_bind, if_neg (by
      intro h
      have := h.1
      omega)]
  · rfl

/-- The INDENT branch never emits DEDENT when the column is not below the top. -/
theorem scan_indent_of_ge (s : Scanner) (lx : TSLexer) (valid : TokenType → Bool)
    (hk : s.stack_size ≤ MAX_INDENT_DEPTH) (hc : s.top ≤ lx.column % 2 ^ 16)
    (hla : is_space lx.lookahead = false) :
    ∃ r, scan_indent s lx valid = some r ∧
      ¬ (r.returned = true ∧ r.lexer.result_symbol = DEDENT) := by
  unfold scan_indent
  split
  · rw [current_indent_of_le s hk, Option.some_bind, indent_width_at_content lx hla]
    dsimp only
    by_cases hcond : lx.column % 2 ^ 16 > s.top ∧ ¬ lx.eof = true ∧ lx.lookahead ≠ LF ∧
        lx.lookahead ≠ CR
    · rw [if_pos hcond]
      by_cases hlt : s.stack_size < MAX_INDENT_DEPTH
      · simp only [Scanner.write, if_pos hlt, Option.map_some']
        exact ⟨_, rfl, fun h => by cases h.2⟩
      · simp only [if_neg hlt, Option.map_some']
        exact ⟨_, rfl, fun h => by cases h.2⟩
    · rw [if_neg hcond]
      exact ⟨_, scan_dedent_of_ge s lx valid hk hc, fun h => by cases h.1⟩
  · exact ⟨_, scan_dedent_of_ge s lx valid hk hc, fun h => by cases h.1⟩

theorem top_mem_stack (s : Scanner) (h : 0 < s.stack_size) : s.top ∈ s.stack := by
  unfold Scanner.stack Scanner.top
  rw [if_neg (by omega)]
  exact List.mem_map.2 ⟨s.stack_size - 1, List.mem_range.2 (by omega), rfl⟩

theorem top_le_of_stack_filter (s1 : Scanner) (c : Nat) (l : List Nat)
    (h : s1.stack = l.filter (fun w => decide (w ≤ c))) : s1.top ≤ c := by
  by_cases h0 : 0 < s1.stack_size
  · have hmem := top_mem_stack s1 h0
    rw [h] at hmem
    have := (List.mem_filter.1 hmem).2
    simpa using this
  · unfold Scanner.top
    rw [if_pos (by omega)]
    exact Nat.zero_le _

theorem levels_above_zero (s : Scanner) (hpos : ∀ i, i < s.stack_size → 0 < s.indent_stack i) :
    levels_above s 0 = s.stack_size := by
  unfold levels_above
  rw [← stack_length s, List.countP_eq_length]
  intro w hw
  unfold Scanner.stack at hw
  obtain ⟨i, hi, rfl⟩ := List.mem_map.1 hw
  simpa using hpos i (List.mem_range.1 hi)

/-- C3: on a strictly increasing stack of positive widths with no DEDENT pending, with the
cursor at a column `c` below the top on a character that is no space, tab or line break,
and `m` the number of levels strictly greater than `c`: `m` is at least 1 (and is the
whole depth when `c = 0`); for every `j ≤ m` the first `j` consecutive calls with DEDENT
acceptable (ERROR_SENTINEL and STRING_CONTENT not acceptable) each emit DEDENT, leave the
cursor in place and have popped exactly `j` levels; after the `m`-th call the counter is 0,
the stack is the original one without the levels greater than `c`, and the next call emits
no DEDENT.  No level has to equal `c`. -/
theorem multi_level_dedent (s : Scanner) (rest : List Nat) (column : Nat) (symbol : TokenType)
    (valid : TokenType → Bool) (hk : s.stack_size ≤ MAX_INDENT_DEPTH)
    (hinc : ∀ i j, i < j → j < s.stack_size → s.indent_stack i < s.indent_stack j)
    (hpos : ∀ i, i < s.stack_size → 0 < s.indent_stack i)
    (hw : ∀ i, i < s.stack_size → s.indent_stack i < 2 ^ 16)
    (hd : s.dedent_count = 0) (hc : column < s.top)
    (hla : is_space (rest.headD 0) = false)
    (hD : valid DEDENT = true) (hE : valid ERROR_SENTINEL = false)
    (hS : valid STRING_CONTENT = false) :
    1 ≤ levels_above s column ∧
    (column = 0 → levels_above s column = s.stack_size) ∧
    ∀ j, j ≤ levels_above s column →
      ∃ sj lxj, scan_times valid j s (start rest column symbol)
          = some (List.replicate j (true, DEDENT), sj, lxj) ∧
        sj.indent_stack = s.indent_stack ∧ sj.stack_size = s.stack_size - j ∧
        lxj.rest = rest ∧ lxj.column = column ∧
        (j = levels_above s column →
          sj.dedent_count = 0 ∧
          sj.stack = s.stack.filter (fun w => decide (w ≤ column)) ∧
          ∃ r, scan sj lxj valid = some r ∧
            ¬ (r.returned = true ∧ r.lexer.result_symbol = DEDENT)) := by
  have hsz : 0 < s.stack_size := by
    by_contra h0
    have : s.top = 0 := by unfold Scanner.top; rw [if_pos (by omega)]
    omega
  have htop : s.top < 2 ^ 16 := by
    unfold Scanner.top
    rw [if_neg (by omega)]
    exact hw _ (by omega)
  have hmod : column % 2 ^ 16 = column := Nat.mod_eq_of_lt (by omega)
  have hlx : is_space (start rest column symbol).lookahead = false := hla
  have hcol : (start rest column symbol).column % 2 ^ 16 < s.top := by
    show column % 2 ^ 16 < s.top
    omega
  obtain ⟨hm, hfirst⟩ := scan_dedent_below_top s (start rest column symbol) valid hk hinc hD hcol
  have hm' : 0 < levels_above s column := by
    have : (start rest column symbol).column % 2 ^ 16 = column := hmod
    rw [this] at hm
    exact hm
  have hscan : scan s (start rest column symbol) valid = some ⟨true,
      { s with dedent_count := levels_above s column - 1, stack_size := s.stack_size - 1 },
      { start rest column symbol with result_symbol := DEDENT }⟩ := by
    rw [scan_at_content s _ valid hE (by rw [hd]; simp) hS hlx,
      scan_indent_of_le s _ valid hk hlx (Nat.le_of_lt hcol), hfirst]
    have : (start rest column symbol).column % 2 ^ 16 = column := hmod
    rw [this]
  refine ⟨hm', fun h0 => by rw [h0]; exact levels_above_zero s hpos, fun j hj => ?_⟩
  cases j with
  | zero =>
    refine ⟨s, start rest column symbol, rfl, rfl, rfl, rfl, rfl, fun h => ?_⟩
    omega
  | succ j =>
    obtain ⟨sj, lxj, hrun, harr, hsize, hcnt, hrest, hcolj, -⟩ :=
      scan_times_pending valid hD hE j
        { s with dedent_count := levels_above s column - 1, stack_size := s.stack_size - 1 }
        ({ start rest column symbol with result_symbol := DEDENT } : TSLexer).accept
        (by show j ≤ levels_above s column - 1; omega) rfl
    have hrest : lxj.rest = rest := hrest
    have hcolj : lxj.column = column := hcolj
    have harr : sj.indent_stack = s.indent_stack := harr
    have hsize' : sj.stack_size = s.stack_size - (j + 1) := by
      rw [hsize]
      show s.stack_size - 1 - j = _
      omega
    refine ⟨sj, lxj, ?_, harr, hsize', hrest, hcolj, fun hjm => ?_⟩
    · unfold scan_times
      rw [hscan, Option.some_bind, hrun]
      rfl
    · have hcnt0 : sj.dedent_count = 0 := by
        rw [hcnt]
        show levels_above s column - 1 - j = 0
        omega
      have hstack : sj.stack = s.stack.filter (fun w => decide (w ≤ column)) := by
        rw [stack_of_pop s sj (j + 1) harr hsize', filter_le_of_sorted column s.stack
          (stack_pairwise s hinc), stack_length s, hjm]
        rfl
      refine ⟨hcnt0, hstack, ?_⟩
      have hkj : sj.stack_size ≤ MAX_INDENT_DEPTH := by rw [hsize']; omega
      have hlaj : is_space lxj.lookahead = false := by
        unfold TSLexer.lookahead
        rw [hrest]
        exact hla
      have htopj : sj.top ≤ lxj.column % 2 ^ 16 := by
        rw [hcolj, hmod]
        exact top_le_of_stack_filter sj column s.stack hstack
      rw [scan_at_content sj lxj valid hE (by rw [hcnt0]; simp) hS hlaj]
      exact scan_indent_of_ge sj lxj valid hkj htopj hlaj

theorem three_levels_increasing (i j : Nat) (hij : i < j) (hj : j < three_levels.stack_size) :
    three_levels.indent_stack i < three_levels.indent_stack j := by
  have hj3 : j < 3 := hj
  interval_cases j <;> interval_cases i <;> decide

/-- Witness of C3: the stack `[2, 4, 6]` with the cursor at column 3, a column that is no
level of the stack: two DEDENT tokens, then the stack `[2]`. -/
theorem multi_level_dedent_witness :
    three_levels.stack = [2, 4, 6] ∧ levels_above three_levels 3 = 2 ∧
      ∃ sj lxj, scan_times (only DEDENT) 2 three_levels (start [120] 3 NEWLINE)
          = some ([(true, DEDENT), (true, DEDENT)], sj, lxj) ∧
        sj.stack_size = 1 ∧ lxj.rest = [120] ∧ sj.dedent_count = 0 ∧
        sj.stack = [2] ∧
        ∃ r, scan sj lxj (only DEDENT) = some r ∧
          ¬ (r.returned = true ∧ r.lexer.result_symbol = DEDENT) := by
  obtain ⟨sj, lxj, h1, -, h3, h4, -, h6⟩ :=
    (multi_level_dedent three_levels [120] 3 NEWLINE (only DEDENT) (by decide)
      three_levels_increasing (by decide) (by decide) rfl (by decide) (by decide) rfl rfl rfl).2.2
      2 (by decide)
  obtain ⟨h7, h8, h9⟩ := h6 (by decide)
  exact ⟨rfl, by decide, sj, lxj, h1, h3, h4, h7, h8, h9⟩

theorem head_dropWhile_not (p : Nat → Bool) (l : List Nat) :
    ¬ ∃ c cs, l.dropWhile p = c :: cs ∧ p c = true := by
  induction l with
  | nil => simp
  | cons a l ih =>
    by_cases ha : p a = true
    · simpa [List.dropWhile, ha] using ih
    · have ha' : p a = false := by simpa using ha
      rintro ⟨c, cs, h, hc⟩
      simp only [List.dropWhile, ha'] at h
      cases h
      exact ha hc

theorem dropWhile_space_dropWhile_blank (l : List Nat) :
    (l.dropWhile is_blank).dropWhile is_space = l.dropWhile is_space := by
  induction l with
  | nil => rfl
  | cons a l ih =>
    by_cases ha : is_blank a = true
    · have hs : is_space a = true := by simp [is_space, ha]
      simp only [List.dropWhile, ha, hs, ih]
    · have ha' : is_blank a = false := by simpa using ha
      simp only [List.dropWhile, ha']

theorem blank_lines_loop_rest (n indent : Nat) (lx : TSLexer) (hn : lx.rest.length ≤ n)
    (hb : ¬ (lx.lookahead = SPACE ∨ lx.lookahead = TAB)) :
    (blank_lines_loop n indent lx).2.rest = lx.rest.dropWhile is_space := by
  induction n generalizing lx indent with
  | zero =>
    have : lx.rest = [] := List.eq_nil_of_length_eq_zero (by omega)
    simp [blank_lines_loop, this]
  | succ n ih =>
    unfold blank_lines_loop
    by_cases hc : lx.lookahead = LF ∨ lx.lookahead = CR
    · rw [if_pos hc]
      obtain ⟨c, cs, hr, hbr⟩ := (break_cond lx).1 hc
      have hs : (skip lx).rest = cs := by rw [skip_rest, hr]; rfl
      have hcs : (count_indent 0 (skip lx)).2.rest = cs.dropWhile is_blank := by
        rw [count_indent_rest, hs]
      have hlen : (count_indent 0 (skip lx)).2.rest.length ≤ n := by
        rw [hcs]
        have h1 := (List.dropWhile_sublist is_blank (l := cs)).length_le
        rw [hr] at hn
        simp only [List.length_cons] at hn
        omega
      have hnb : ¬ ((count_indent 0 (skip lx)).2.lookahead = SPACE ∨
          (count_indent 0 (skip lx)).2.lookahead = TAB) := by
        rw [blank_cond, hcs]
        exact head_dropWhile_not is_blank cs
      dsimp only
      rw [ih _ _ hlen hnb, hcs, hr, dropWhile_space_dropWhile_blank]
      have hsp : is_space c = true := by simp [is_space, hbr]
      simp only [List.dropWhile, hsp]
    · rw [if_neg hc]
      symm
      apply dropWhile_of_not_cond
      rintro ⟨c, cs, hr, hsp⟩
      simp only [is_space, Bool.or_eq_true] at hsp
      rcases hsp with h | h
      · exact hb ((blank_cond lx).2 ⟨c, cs, hr, h⟩)
      · exact hc ((break_cond lx).2 ⟨c, cs, hr, h⟩)

theorem blank_lines_rest (indent : Nat) (lx : TSLexer)
    (hb : ¬ (lx.lookahead = SPACE ∨ lx.lookahead = TAB)) :
    (blank_lines indent lx).2.rest = lx.rest.dropWhile is_space :=
  blank_lines_loop_rest _ _ lx (le_refl _) hb

theorem dropWhile_space_idem (l : List Nat) :
    (l.dropWhile is_space).dropWhile is_space = l.dropWhile is_space :=
  dropWhile_of_not_cond (head_dropWhile_not is_space l)

theorem skip_lines_loop_spec (n : Nat) (found : Bool) (indent : Nat) (lx : TSLexer)
    (hn : lx.rest.length ≤ n) (hb : ¬ (lx.lookahead = SPACE ∨ lx.lookahead = TAB)) :
    (skip_lines_loop n found indent lx).2.2.rest = lx.rest.dropWhile is_space ∧
      (skip_lines_loop n found indent lx).1 = (found || is_break lx.lookahead) := by
  induction n generalizing lx indent found with
  | zero =>
    have h0 : lx.rest = [] := List.eq_nil_of_length_eq_zero (by omega)
    have h1 : lx.lookahead = 0 := by unfold TSLexer.lookahead; rw [h0]; rfl
    refine ⟨?_, ?_⟩
    · simp only [skip_lines_loop, h0, List.dropWhile]
    · rw [h1]
      cases found <;> rfl
  | succ n ih =>
    unfold skip_lines_loop
    by_cases hc : lx.lookahead = LF ∨ lx.lookahead = CR
    · rw [if_pos hc]
      obtain ⟨c, cs, hr, hbr⟩ := (break_cond lx).1 hc
      have hla : lx.lookahead = c := by unfold TSLexer.lookahead; rw [hr]; rfl
      have hs : (skip lx).rest = cs := by rw [skip_rest, hr]; rfl
      have hcs : (count_indent 0 (skip lx)).2.rest = cs.dropWhile is_blank := by
        rw [count_indent_rest, hs]
      have hnb : ¬ ((count_indent 0 (skip lx)).2.lookahead = SPACE ∨
          (count_indent 0 (skip lx)).2.lookahead = TAB) := by
        rw [blank_cond, hcs]
        exact head_dropWhile_not is_blank cs
      have hbl : (blank_lines (count_indent 0 (skip lx)).1 (count_indent 0 (skip lx)).2).2.rest
          = cs.dropWhile is_space := by
        rw [blank_lines_rest _ _ hnb, hcs, dropWhile_space_dropWhile_blank]
      have hlen : (blank_lines (count_indent 0 (skip lx)).1
          (count_indent 0 (skip lx)).2).2.rest.length ≤ n := by
        rw [hbl]
        have h1 := (List.dropWhile_sublist is_space (l := cs)).length_le
        rw [hr] at hn
        simp only [List.length_cons] at hn
        omega
      have hnb2 : ¬ ((blank_lines (count_indent 0 (skip lx)).1
          (count_indent 0 (skip lx)).2).2.lookahead = SPACE ∨
          (blank_lines (count_indent 0 (skip lx)).1
          (count_indent 0 (skip lx)).2).2.lookahead = TAB) := by
        rw [blank_cond, hbl]
        rintro ⟨c1, cs1, h1, h2⟩
        exact head_dropWhile_not is_space cs ⟨c1, cs1, h1, by simp [is_space, h2]⟩
      dsimp only
      obtain ⟨ih1, ih2⟩ := ih true _ _ hlen hnb2
      refine ⟨?_, ?_⟩
      · rw [ih1, hbl, dropWhile_space_idem, hr]
        have hsp : is_space c = true := by simp [is_space, hbr]
        simp only [List.dropWhile, hsp]
      · rw [ih2, hla, hbr]
        simp
    · rw [if_neg hc]
      refine ⟨?_, ?_⟩
      · symm
        apply dropWhile_of_not_cond
        rintro ⟨c, cs, hr, hsp⟩
        simp only [is_space, Bool.or_eq_true] at hsp
        rcases hsp with h | h
        · exact hb ((blank_cond lx).2 ⟨c, cs, hr, h⟩)
        · exact hc ((break_cond lx).2 ⟨c, cs, hr, h⟩)
      · have : is_break lx.lookahead = false := by
          cases hbk : is_break lx.lookahead
          · rfl
          · exfalso
            apply hc
            simpa [is_break] using hbk
        rw [this]
        simp

/-- The whitespace loops of lines 149-179 together: the unread text afterwards and the
flag `found_newline`. -/
theorem skip_lines_skip_blanks (lx : TSLexer) :
    (skip_lines (skip_blanks lx)).2.2.rest = (lx.rest.dropWhile is_blank).dropWhile is_space ∧
      (skip_lines (skip_blanks lx)).1 = is_break ((lx.rest.dropWhile is_blank).headD 0) := by
  have hnb : ¬ ((skip_blanks lx).lookahead = SPACE ∨ (skip_blanks lx).lookahead = TAB) := by
    rw [blank_cond, skip_blanks_rest]
    exact head_dropWhile_not is_blank lx.rest
  obtain ⟨h1, h2⟩ := skip_lines_loop_spec (skip_blanks lx).rest.length false 0 (skip_blanks lx)
    (le_refl _) hnb
  refine ⟨?_, ?_⟩
  · unfold skip_lines
    rw [h1, skip_blanks_rest]
  · unfold skip_lines
    rw [h2]
    unfold TSLexer.lookahead
    rw [skip_blanks_rest]
    simp

/-- The NEWLINE branch: taken when NEWLINE is acceptable and the first character after the
leading spaces and tabs is a line break. -/
theorem scan_newline (s : Scanner) (lx : TSLexer) (valid : TokenType → Bool)
    (hk : s.stack_size ≤ MAX_INDENT_DEPTH)
    (hE : valid ERROR_SENTINEL = false) (hP : ¬ (valid DEDENT = true ∧ s.dedent_count > 0))
    (hS : valid STRING_CONTENT = false) (hN : valid NEWLINE = true)
    (hbr : is_break ((lx.rest.dropWhile is_blank).headD 0) = true) :
    scan s lx valid = some ⟨true,
      if (skip_lines (skip_blanks lx)).2.2.eof then { s with dedent_count := s.stack_size } else s,
      { (skip_lines (skip_blanks lx)).2.2.mark_end with result_symbol := NEWLINE }⟩ := by
  unfold scan
  rw [if_neg (by simp [hE]), if_neg hP, if_neg (by simp [hS])]
  dsimp only
  rw [if_pos ⟨hN, by rw [(skip_lines_skip_blanks lx).2]; exact hbr⟩, current_indent_of_le s hk,
    Option.some_bind]
  rfl

theorem dropWhile_append_of_all (p : Nat → Bool) (ws : List Nat) (c : Nat) (tail : List Nat)
    (hws : ∀ x ∈ ws, p x = true) (hc : p c = false) :
    (ws ++ c :: tail).dropWhile p = c :: tail := by
  induction ws with
  | nil => simp [List.dropWhile, hc]
  | cons a ws ih =>
    have ha : p a = true := hws a (List.mem_cons_self _ _)
    simp only [List.cons_append, List.dropWhile, ha]
    exact ih (fun x hx => hws x (List.mem_cons_of_mem _ hx))

theorem dropWhile_eq_nil_of_all (p : Nat → Bool) (l : List Nat) (h : ∀ x ∈ l, p x = true) :
    l.dropWhile p = [] := by
  induction l with
  | nil => rfl
  | cons a l ih =>
    have ha : p a = true := h a (List.mem_cons_self _ _)
    simp only [List.dropWhile, ha]
    exact ih (fun x hx => h x (List.mem_cons_of_mem _ hx))

theorem not_blank_of_break {c : Nat} (h : is_break c = true) : is_blank c = false := by
  simp only [is_break, Bool.or_eq_true, beq_iff_eq] at h
  rcases h with rfl | rfl <;> decide

/-- C4: with no DEDENT pending and a stack of depth `k` within the array, on a rest of the
input made of spaces and tabs, a line break, and then only spaces, tabs and line breaks, a
call with NEWLINE acceptable (ERROR_SENTINEL and STRING_CONTENT not acceptable) emits
NEWLINE at the end of the input, leaves the stack as it is and sets the counter to `k`;
the next `k` calls with DEDENT acceptable (ERROR_SENTINEL not acceptable) each emit DEDENT
with the cursor staying at the end, and leave an empty stack and the counter 0. -/
theorem newline_at_end_closes_blocks (s : Scanner) (ws tail : List Nat) (nl column : Nat)
    (symbol : TokenType) (valid valid2 : TokenType → Bool)
    (hk : s.stack_size ≤ MAX_INDENT_DEPTH) (hd : s.dedent_count = 0)
    (hws : ∀ c ∈ ws, is_blank c = true) (hnl : is_break nl = true)
    (htail : ∀ c ∈ tail, is_space c = true)
    (hN : valid NEWLINE = true) (hE : valid ERROR_SENTINEL = false)
    (hS : valid STRING_CONTENT = false)
    (hD2 : valid2 DEDENT = true) (hE2 : valid2 ERROR_SENTINEL = false) :
    ∃ r, scan s (start (ws ++ nl :: tail) column symbol) valid = some r ∧
      r.returned = true ∧ r.lexer.result_symbol = NEWLINE ∧ r.lexer.rest = [] ∧
      r.scanner.stack_size = s.stack_size ∧ r.scanner.indent_stack = s.indent_stack ∧
      r.scanner.dedent_count = s.stack_size ∧
      ∃ sf lxf, scan_times valid2 s.stack_size r.scanner r.lexer.accept
          = some (List.replicate s.stack_size (true, DEDENT), sf, lxf) ∧
        sf.stack_size = 0 ∧ sf.dedent_count = 0 ∧ lxf.rest = [] := by
  have hdrop : ((start (ws ++ nl :: tail) column symbol).rest.dropWhile is_blank) = nl :: tail :=
    dropWhile_append_of_all is_blank ws nl tail hws (not_blank_of_break hnl)
  have hrest : (skip_lines (skip_blanks (start (ws ++ nl :: tail) column symbol))).2.2.rest
      = [] := by
    rw [(skip_lines_skip_blanks _).1, hdrop]
    apply dropWhile_eq_nil_of_all
    intro x hx
    rcases List.mem_cons.1 hx with rfl | hx
    · simp [is_space, hnl]
    · exact htail x hx
  have heof : (skip_lines (skip_blanks (start (ws ++ nl :: tail) column symbol))).2.2.eof
      = true := by
    unfold TSLexer.eof
    rw [hrest]
    rfl
  have hscan := scan_newline s (start (ws ++ nl :: tail) column symbol) valid hk hE
    (by rw [hd]; simp) hS hN (by rw [hdrop]; exact hnl)
  rw [heof, if_pos rfl] at hscan
  obtain ⟨sf, lxf, hrun, -, hsz, hdc, hr, -, -⟩ := scan_times_pending valid2 hD2 hE2 s.stack_size
    { s with dedent_count := s.stack_size }
    ({ (skip_lines (skip_blanks (start (ws ++ nl :: tail) column symbol))).2.2.mark_end with
      result_symbol := NEWLINE } : TSLexer).accept (le_refl _) rfl
  refine ⟨_, hscan, rfl, rfl, hrest, rfl, rfl, rfl, sf, lxf, hrun, ?_, ?_, ?_⟩
  · rw [hsz]
    exact Nat.sub_self _
  · rw [hdc]
    exact Nat.sub_self _
  · rw [hr]
    exact hrest

/-- Witness of C4: the stack `[2, 4]` and the rest ` \n\t\n` of the input. -/
theorem newline_at_end_closes_blocks_witness :
    two_levels.stack = [2, 4] ∧
      ∃ r, scan two_levels (start ([SPACE] ++ LF :: [TAB, LF]) 1 INDENT) (only NEWLINE) = some r ∧
        r.returned = true ∧ r.lexer.result_symbol = NEWLINE ∧ r.lexer.rest = [] ∧
        r.scanner.stack_size = two_levels.stack_size ∧
        r.scanner.indent_stack = two_levels.indent_stack ∧
        r.scanner.dedent_count = two_levels.stack_size ∧
        ∃ sf lxf, scan_times (only DEDENT) two_levels.stack_size r.scanner r.lexer.accept
            = some (List.replicate two_levels.stack_size (true, DEDENT), sf, lxf) ∧
          sf.stack_size = 0 ∧ sf.dedent_count = 0 ∧ lxf.rest = [] :=
  ⟨rfl, newline_at_end_closes_blocks two_levels [SPACE] [TAB, LF] LF 1 INDENT (only NEWLINE)
    (only DEDENT) (by decide) rfl (by decide) (by decide) (by decide) rfl rfl rfl rfl rfl⟩

/-- C5, the code at the failing input: over the document `a`, `b` indented by 2, `c`
indented by 4, without a final line break, the stack is `[2, 4]` before the end of the
input, and there the call with DEDENT acceptable returns false, also when INDENT and
NEWLINE are acceptable with it: the column 5 is not below the top 4, no DEDENT is emitted
and the stack stays `[2, 4]`. -/
theorem no_dedent_at_end_without_line_break :
    nested_document_run (only DEDENT) = some
      [(true, NEWLINE, [], 0, [98, LF, SPACE, SPACE, SPACE, SPACE, 99], 2),
       (true, INDENT, [2], 0, [98, LF, SPACE, SPACE, SPACE, SPACE, 99], 2),
       (true, NEWLINE, [2], 0, [99], 4),
       (true, INDENT, [2, 4], 0, [99], 4),
       (false, INDENT, [2, 4], 0, [], 5)] ∧
    nested_document_run layout_symbols = some
      [(true, NEWLINE, [], 0, [98, LF, SPACE, SPACE, SPACE, SPACE, 99], 2),
       (true, INDENT, [2], 0, [98, LF, SPACE, SPACE, SPACE, SPACE, 99], 2),
       (true, NEWLINE, [2], 0, [99], 4),
       (true, INDENT, [2, 4], 0, [99], 4),
       (false, INDENT, [2, 4], 0, [], 5)] :=
  ⟨rfl, rfl⟩

/-- C6, the code at the failing input: NEWLINE then INDENT over a line indented by two
tabs pushes the width 2, over a line indented by four spaces the width 4. -/
theorem two_tabs_push_width_two :
    newline_indent_run [LF, TAB, TAB, 120]
        = some [(true, NEWLINE, [], 0, [120], 2), (true, INDENT, [2], 0, [120], 2)] ∧
      newline_indent_run [LF, SPACE, SPACE, SPACE, SPACE, 120]
        = some [(true, NEWLINE, [], 0, [120], 4), (true, INDENT, [4], 0, [120], 4)] :=
  ⟨rfl, rfl⟩

theorem advance_rest (lx : TSLexer) (c : Nat) (cs : List Nat) (h : lx.rest = c :: cs) :
    (advance lx).rest = cs ∧ (advance lx).token = lx.token ++ [c] ∧
      (advance lx).marked = lx.marked := by
  unfold advance TSLexer.advance
  rw [h]
  exact ⟨rfl, rfl, rfl⟩

theorem lookahead_of_rest (lx : TSLexer) (c : Nat) (cs : List Nat) (h : lx.rest = c :: cs) :
    lx.lookahead = c := by
  unfold TSLexer.lookahead
  rw [h]
  rfl

theorem eof_of_rest (lx : TSLexer) (c : Nat) (cs : List Nat) (h : lx.rest = c :: cs) :
    lx.eof = false := by
  unfold TSLexer.eof
  rw [h]
  rfl

theorem plain_cases {x : Nat} (h : is_plain x = true) :
    ¬ (x = DQUOTE ∨ x = SQUOTE) ∧ ¬ x = BACKSLASH ∧ ¬ (x = LF ∨ x = CR) := by
  simp only [is_plain, is_stop, is_break, Bool.and_eq_true, Bool.not_eq_true',
    Bool.or_eq_false_iff, beq_eq_false_iff_ne, ne_eq] at h
  exact ⟨fun h1 => h1.elim h.1.1.1 h.1.1.2, h.1.2, fun h1 => h1.elim h.2.1 h.2.2⟩

theorem head_ne_lbrace_of_delimiter {r : List Nat} (h : starts_delimiter r = true) :
    r.headD 0 ≠ LBRACE := by
  cases r with
  | nil => cases h
  | cons d rs =>
    simp only [starts_delimiter, is_stop, Bool.or_eq_true, beq_iff_eq, Bool.and_eq_true] at h
    show d ≠ LBRACE
    rcases h with ((rfl | rfl) | rfl) | ⟨rfl, -⟩ <;> decide

/-- The character after a `#` of the content is not `{`. -/
theorem next_ne_lbrace (cs r : List Nat) (hop : has_opener (HASH :: cs) = false)
    (hr : r.headD 0 ≠ LBRACE) : (cs ++ r).headD 0 ≠ LBRACE := by
  cases cs with
  | nil => exact hr
  | cons y ys =>
    simp only [has_opener, beq_self_eq_true, Bool.true_and, Bool.or_eq_false_iff,
      beq_eq_false_iff_ne, ne_eq] at hop
    exact hop.1

theorem has_opener_tail {x : Nat} {cs : List Nat} (h : has_opener (x :: cs) = false) :
    has_opener cs = false := by
  simp only [has_opener, Bool.or_eq_false_iff] at h
  exact h.2

/-- The string loop over plain content `c` followed by a delimiter: it stops at the
delimiter with the end boundary right after `c`. -/
theorem scan_string_content (r : List Nat) (hr : starts_delimiter r = true) (c : List Nat)
    (n : Nat) (has_content : Bool) (lx : TSLexer) (hrest : lx.rest = c ++ r)
    (hn : lx.rest.length ≤ n) (hplain : ∀ x ∈ c, is_plain x = true)
    (hop : has_opener c = false) :
    ∃ lx1 col, scan_string n has_content lx = (has_content || !c.isEmpty, lx1) ∧
      lx1.marked = some ⟨lx.token ++ c, r, col⟩ ∧ lx1.result_symbol = STRING_CONTENT := by
  induction c generalizing n has_content lx with
  | nil =>
    cases r with
    | nil => cases hr
    | cons d rs =>
      have hrest' : lx.rest = d :: rs := hrest
      have hla := lookahead_of_rest lx d rs hrest'
      have heof := eof_of_rest lx d rs hrest'
      cases n with
      | zero => rw [hrest'] at hn; simp at hn
      | succ n =>
        unfold scan_string
        rw [heof, hla]
        simp only [Bool.false_eq_true, if_false, List.isEmpty_nil, Bool.not_true, Bool.or_false,
          List.append_nil]
        by_cases hq : d = DQUOTE ∨ d = SQUOTE
        · rw [if_pos hq]
          exact ⟨_, lx.column, rfl, by simp [TSLexer.mark_end, hrest'], rfl⟩
        · rw [if_neg hq]
          by_cases hb : d = BACKSLASH
          · rw [if_pos hb]
            exact ⟨_, lx.column, rfl, by simp [TSLexer.mark_end, hrest'], rfl⟩
          · rw [if_neg hb]
            have hh : d = HASH ∧ rs.headD 0 = LBRACE := by
              simp only [starts_delimiter, is_stop, Bool.or_eq_true, beq_iff_eq,
                Bool.and_eq_true] at hr
              rcases hr with ((h | h) | h) | h
              · exact absurd (Or.inl h) hq
              · exact absurd (Or.inr h) hq
              · exact absurd h hb
              · exact h
            rw [if_pos hh.1]
            have hadv := advance_rest lx.mark_end d rs hrest'
            have hla1 : (advance lx.mark_end).lookahead = LBRACE := by
              unfold TSLexer.lookahead
              rw [hadv.1]
              exact hh.2
            rw [if_pos hla1]
            refine ⟨_, lx.column, rfl, ?_, rfl⟩
            show (advance lx.mark_end).marked = _
            rw [hadv.2.2]
            simp [TSLexer.mark_end, hrest']
  | cons x cs ih =>
    have hrest' : lx.rest = x :: (cs ++ r) := hrest
    have hla := lookahead_of_rest lx x _ hrest'
    have heof := eof_of_rest lx x _ hrest'
    obtain ⟨hq, hb, hbr⟩ := plain_cases (hplain x (List.mem_cons_self _ _))
    cases n with
    | zero => rw [hrest'] at hn; simp at hn
    | succ n =>
      have hn' : (cs ++ r).length ≤ n := by
        rw [hrest'] at hn
        simpa using hn
      unfold scan_string
      rw [heof, hla]
      simp only [Bool.false_eq_true, if_false, if_neg hq, if_neg hb, if_neg hbr]
      by_cases hh : x = HASH
      · rw [if_pos hh]
        have hadv := advance_rest lx.mark_end x _ hrest'
        have hla1 : ¬ (advance lx.mark_end).lookahead = LBRACE := by
          unfold TSLexer.lookahead
          rw [hadv.1]
          exact next_ne_lbrace cs r (by rw [← hh]; exact hop) (head_ne_lbrace_of_delimiter hr)
        rw [if_neg hla1]
        obtain ⟨lx1, col, h1, h2, h3⟩ := ih n true (advance lx.mark_end) hadv.1
          (by rw [hadv.1]; exact hn') (fun y hy => hplain y (List.mem_cons_of_mem _ hy))
          (has_opener_tail hop)
        refine ⟨lx1, col, ?_, ?_, h3⟩
        · rw [h1]
          simp
        · rw [h2, hadv.2.1]
          simp [TSLexer.mark_end]
      · rw [if_neg hh]
        have hadv := advance_rest lx x _ hrest'
        obtain ⟨lx1, col, h1, h2, h3⟩ := ih n true (advance lx) hadv.1
          (by rw [hadv.1]; exact hn') (fun y hy => hplain y (List.mem_cons_of_mem _ hy))
          (has_opener_tail hop)
        refine ⟨lx1, col, ?_, ?_, h3⟩
        · rw [h1]
          simp
        · rw [h2, hadv.2.1]
          simp

/-- The string branch of `scan`. -/
theorem scan_of_string (s : Scanner) (lx : TSLexer) (valid : TokenType → Bool)
    (hE : valid ERROR_SENTINEL = false) (hP : ¬ (valid DEDENT = true ∧ s.dedent_count > 0))
    (hS : valid STRING_CONTENT = true) :
    scan s lx valid = some ⟨(scan_string lx.rest.length false lx).1, s,
      (scan_string lx.rest.length false lx).2⟩ := by
  unfold scan
  rw [if_neg (by simp [hE]), if_neg hP, if_pos hS]

/-- C7: for non-empty content `c` without quote, backslash, line break or `#` immediately
followed by `{`, and a continuation `r` that begins with a quote, a backslash or `#{`, a
call at the start of `c ++ r` with STRING_CONTENT acceptable (ERROR_SENTINEL not
acceptable, no pending DEDENT emitted) returns STRING_CONTENT with the span `c`, the host
resumes at `r`, and the state is unchanged.  A `#` not followed by `{` is content. -/
theorem string_content_span (s : Scanner) (c r : List Nat) (column : Nat) (symbol : TokenType)
    (valid : TokenType → Bool) (hc : c ≠ []) (hplain : ∀ x ∈ c, is_plain x = true)
    (hop : has_opener c = false) (hr : starts_delimiter r = true)
    (hS : valid STRING_CONTENT = true) (hE : valid ERROR_SENTINEL = false)
    (hP : ¬ (valid DEDENT = true ∧ s.dedent_count > 0)) :
    ∃ res, scan s (start (c ++ r) column symbol) valid = some res ∧ res.returned = true ∧
      res.lexer.result_symbol = STRING_CONTENT ∧ res.lexer.span = c ∧
      res.lexer.accept.rest = r ∧ res.scanner = s := by
  obtain ⟨lx1, col, h1, h2, h3⟩ := scan_string_content r hr c (c ++ r).length false
    (start (c ++ r) column symbol) rfl (le_refl _) hplain hop
  have hne : (false || !c.isEmpty) = true := by
    cases c with
    | nil => exact absurd rfl hc
    | cons x cs => rfl
  have h1' : scan_string (start (c ++ r) column symbol).rest.length false
      (start (c ++ r) column symbol) = (true, lx1) := by
    rw [← hne]
    exact h1
  refine ⟨_, scan_of_string s _ valid hE hP hS, ?_, ?_, ?_, ?_, rfl⟩
  · rw [h1']
  · rw [h1']
    exact h3
  · rw [h1']
    unfold TSLexer.span
    rw [h2]
    rfl
  · rw [h1']
    unfold TSLexer.accept
    rw [h2]

/-- Witness of C7: `abc#def` before a closing quote gives a span of all seven characters,
and `abc` before `#{x}` gives the span `abc`. -/
theorem string_content_span_witness :
    (∃ res, scan create (start ([97, 98, 99, HASH, 100, 101, 102] ++ [DQUOTE]) 1 INDENT)
        (only STRING_CONTENT) = some res ∧ res.returned = true ∧
      res.lexer.result_symbol = STRING_CONTENT ∧
      res.lexer.span = [97, 98, 99, HASH, 100, 101, 102] ∧
      res.lexer.accept.rest = [DQUOTE] ∧ res.scanner = create) ∧
    (∃ res, scan create (start ([97, 98, 99] ++ [HASH, LBRACE, 120, 125]) 1 INDENT)
        (only STRING_CONTENT) = some res ∧ res.returned = true ∧
      res.lexer.result_symbol = STRING_CONTENT ∧ res.lexer.span = [97, 98, 99] ∧
      res.lexer.accept.rest = [HASH, LBRACE, 120, 125] ∧ res.scanner = create) :=
  ⟨string_content_span create [97, 98, 99, HASH, 100, 101, 102] [DQUOTE] 1 INDENT
      (only STRING_CONTENT) (by decide) (by decide) rfl rfl rfl rfl (by decide),
    string_content_span create [97, 98, 99] [HASH, LBRACE, 120, 125] 1 INDENT
      (only STRING_CONTENT) (by decide) (by decide) rfl rfl rfl rfl (by decide)⟩

theorem has_opener_cons_of_ne (x : Nat) (cs : List Nat) (h : cs.headD 0 ≠ LBRACE)
    (hcs : has_opener cs = false) : has_opener (x :: cs) = false := by
  simp only [has_opener, hcs, Bool.or_false, Bool.and_eq_false_imp, beq_iff_eq,
    beq_eq_false_iff_ne, ne_eq]
  exact fun _ => h

theorem headD_of_append (c r : List Nat) (h : (c ++ r).headD 0 ≠ LBRACE) :
    c.headD 0 ≠ LBRACE := by
  cases c with
  | nil => decide
  | cons y ys => exact h

/-- Whenever the string loop returns true, it has passed a non-empty run of plain content
without `#{` (non-empty unless `has_content` was set before) and stopped at a delimiter,
with the end boundary right after that content. -/
theorem scan_string_sound (n : Nat) (has_content : Bool) (lx lx1 : TSLexer)
    (h : scan_string n has_content lx = (true, lx1)) :
    ∃ c r col, lx.rest = c ++ r ∧ lx1.marked = some ⟨lx.token ++ c, r, col⟩ ∧
      lx1.result_symbol = STRING_CONTENT ∧ (∀ x ∈ c, is_plain x = true) ∧
      has_opener c = false ∧ (has_content = false → c ≠ []) ∧ starts_delimiter r = true := by
  induction n generalizing has_content lx with
  | zero => simp [scan_string] at h
  | succ n ih =>
    unfold scan_string at h
    cases hrest : lx.rest with
    | nil =>
      have heof : lx.eof = true := by unfold TSLexer.eof; rw [hrest]; rfl
      rw [heof] at h
      simp at h
    | cons d rs =>
      have hla := lookahead_of_rest lx d rs hrest
      have heof := eof_of_rest lx d rs hrest
      rw [heof, hla] at h
      simp only [Bool.false_eq_true, if_false] at h
      by_cases hq : d = DQUOTE ∨ d = SQUOTE
      · rw [if_pos hq] at h
        simp only [Prod.mk.injEq] at h
        obtain ⟨h1, h2⟩ := h
        subst h2
        refine ⟨[], d :: rs, lx.column, rfl, by simp [TSLexer.mark_end, hrest], rfl,
          (fun x hx => by cases hx), rfl, (fun hf => by rw [hf] at h1; cases h1), ?_⟩
        rcases hq with rfl | rfl <;> rfl
      · rw [if_neg hq] at h
        by_cases hb : d = BACKSLASH
        · rw [if_pos hb] at h
          simp only [Prod.mk.injEq] at h
          obtain ⟨h1, h2⟩ := h
          subst h2
          refine ⟨[], d :: rs, lx.column, rfl, by simp [TSLexer.mark_end, hrest], rfl,
            (fun x hx => by cases hx), rfl, (fun hf => by rw [hf] at h1; cases h1), ?_⟩
          rw [hb]; rfl
        · rw [if_neg hb] at h
          by_cases hh : d = HASH
          · rw [if_pos hh] at h
            have hadv := advance_rest lx.mark_end d rs hrest
            have hla1 : (advance lx.mark_end).lookahead = rs.headD 0 := by
              unfold TSLexer.lookahead
              rw [hadv.1]
            by_cases hl : (advance lx.mark_end).lookahead = LBRACE
            · rw [if_pos hl] at h
              simp only [Prod.mk.injEq] at h
              obtain ⟨h1, h2⟩ := h
              subst h2
              refine ⟨[], d :: rs, lx.column, rfl, ?_, rfl,
                (fun x hx => by cases hx), rfl, (fun hf => by rw [hf] at h1; cases h1), ?_⟩
              · show (advance lx.mark_end).marked = _
                rw [hadv.2.2]
                simp [TSLexer.mark_end, hrest]
              · rw [hla1] at hl
                show (is_stop d || (d == HASH && rs.headD 0 == LBRACE)) = true
                rw [hh, hl]
                rfl
            · rw [if_neg hl] at h
              obtain ⟨c, r, col, e1, e2, e3, e4, e5, -, e7⟩ := ih true (advance lx.mark_end) h
              rw [hadv.1] at e1
              rw [hla1, e1] at hl
              refine ⟨d :: c, r, col, by rw [e1]; rfl, ?_, e3, ?_,
                has_opener_cons_of_ne d c (headD_of_append c r hl) e5,
                fun _ => List.cons_ne_nil _ _, e7⟩
              · rw [e2, hadv.2.1]
                simp [TSLexer.mark_end]
              · intro x hx
                rcases List.mem_cons.1 hx with rfl | hx
                · rw [hh]; rfl
                · exact e4 x hx
          · rw [if_neg hh] at h
            by_cases hbr : d = LF ∨ d = CR
            · rw [if_pos hbr] at h
              simp at h
            · rw [if_neg hbr] at h
              have hadv := advance_rest lx d rs hrest
              obtain ⟨c, r, col, e1, e2, e3, e4, e5, -, e7⟩ := ih true (advance lx) h
              rw [hadv.1] at e1
              refine ⟨d :: c, r, col, by rw [e1]; rfl, ?_, e3, ?_, ?_,
                fun _ => List.cons_ne_nil _ _, e7⟩
              · rw [e2, hadv.2.1]
                simp
              · intro x hx
                rcases List.mem_cons.1 hx with rfl | hx
                · simp only [is_plain, is_stop, is_break, Bool.and_eq_true, Bool.not_eq_true',
                    Bool.or_eq_false_iff, beq_eq_false_iff_ne, ne_eq]
                  exact ⟨⟨⟨fun e => hq (Or.inl e), fun e => hq (Or.inr e)⟩, hb⟩,
                    fun e => hbr (Or.inl e), fun e => hbr (Or.inr e)⟩
                · exact e4 x hx
              · simp only [has_opener, e5, Bool.or_false, Bool.and_eq_false_imp, beq_iff_eq]
                exact fun e => absurd e hh

/-- The string loop refuses at a delimiter when nothing was passed before. -/
theorem scan_string_at_delimiter (r : List Nat) (hr : starts_delimiter r = true) (n : Nat)
    (lx : TSLexer) (hrest : lx.rest = r) : (scan_string n false lx).1 = false := by
  cases hres : scan_string n false lx with
  | mk b lx1 =>
    cases b with
    | false => rfl
    | true =>
      obtain ⟨c, r1, col, e1, -, -, e4, e5, e6, e7⟩ := scan_string_sound n false lx lx1 hres
      exfalso
      cases c with
      | nil => exact e6 rfl rfl
      | cons x cs =>
        rw [hrest] at e1
        subst e1
        have hx := e4 x (List.mem_cons_self _ _)
        simp only [starts_delimiter, List.cons_append] at hr
        simp only [has_opener, Bool.or_eq_false_iff, Bool.and_eq_false_imp, beq_iff_eq] at e5
        simp only [is_plain, Bool.and_eq_true, Bool.not_eq_true'] at hx
        rw [hx.1, Bool.false_or, Bool.and_eq_true, beq_iff_eq, beq_iff_eq] at hr
        have h1 := e5.1 hr.1
        have h2 : cs.headD 0 ≠ LBRACE := by simpa using h1
        cases cs with
        | nil =>
          have h3 := head_ne_lbrace_of_delimiter e7
          exact h3 hr.2
        | cons y ys => exact h2 hr.2

theorem scan_dedent_symbol (s : Scanner) (lx : TSLexer) (valid : TokenType → Bool)
    (r : ScanResult) (h : scan_dedent s lx valid = some r) (hret : r.returned = true) :
    r.lexer.result_symbol = DEDENT := by
  unfold scan_dedent at h
  split at h
  · simp only [Option.bind_eq_some] at h
    obtain ⟨current, -, h⟩ := h
    split at h
    · simp only [Option.bind_eq_some] at h
      obtain ⟨dedents, -, h⟩ := h
      split at h
      · cases h; rfl
      · cases h; cases hret
    · cases h; cases hret
  · cases h; cases hret

theorem scan_indent_symbol (s : Scanner) (lx : TSLexer) (valid : TokenType → Bool)
    (r : ScanResult) (h : scan_indent s lx valid = some r) (hret : r.returned = true) :
    r.lexer.result_symbol = INDENT ∨ r.lexer.result_symbol = DEDENT := by
  unfold scan_indent at h
  split at h
  · simp only [Option.bind_eq_some] at h
    obtain ⟨current, -, h⟩ := h
    split at h
    · simp only [Option.map_eq_some'] at h
      obtain ⟨s2, -, h⟩ := h
      cases h
      exact Or.inl rfl
    · exact Or.inr (scan_dedent_symbol _ _ _ _ h hret)
  · exact Or.inr (scan_dedent_symbol _ _ _ _ h hret)

/-- A call that returns true with the result STRING_CONTENT went through the string loop. -/
theorem string_result_from_loop (s : Scanner) (lx : TSLexer) (valid : TokenType → Bool)
    (r : ScanResult) (h : scan s lx valid = some r) (hret : r.returned = true)
    (hsym : r.lexer.result_symbol = STRING_CONTENT) :
    scan_string lx.rest.length false lx = (true, r.lexer) := by
  unfold scan at h
  split at h
  · cases h; cases hret
  · split at h
    · cases h; cases hsym
    · split at h
      · cases h
        simp only at hret
        rw [← hret]
      · dsimp only at h
        split at h
        · simp only [Option.bind_eq_some] at h
          obtain ⟨c, -, h⟩ := h
          cases h
          cases hsym
        · rcases scan_indent_symbol _ _ _ _ h hret with h1 | h1 <;> rw [h1] at hsym <;> cases hsym

/-- C8, amended: whenever `scan` returns true with the result STRING_CONTENT, the span is
not empty, is the text read from the cursor, and holds no quote, no backslash, no line
break and no `#` immediately followed by `{`; and when the text at the cursor begins with
a quote, a backslash or `#{`, a call with STRING_CONTENT acceptable returns no token and
leaves the state unchanged, unless it emits a pending DEDENT (ERROR_SENTINEL not
acceptable, DEDENT acceptable and the counter positive). -/
theorem string_content_never_empty (s : Scanner) (rest : List Nat) (column : Nat)
    (symbol : TokenType) (valid : TokenType → Bool) :
    (∀ res, scan s (start rest column symbol) valid = some res → res.returned = true →
      res.lexer.result_symbol = STRING_CONTENT →
        res.lexer.span ≠ [] ∧ (∀ x ∈ res.lexer.span, is_plain x = true) ∧
        has_opener res.lexer.span = false ∧ ∃ r, rest = res.lexer.span ++ r) ∧
    (valid STRING_CONTENT = true → starts_delimiter rest = true →
      ¬ (valid ERROR_SENTINEL = false ∧ valid DEDENT = true ∧ s.dedent_count > 0) →
        ∃ res, scan s (start rest column symbol) valid = some res ∧ res.returned = false ∧
          res.scanner = s) := by
  refine ⟨fun res h hret hsym => ?_, fun hS hr hP => ?_⟩
  · have hloop := string_result_from_loop s _ valid res h hret hsym
    obtain ⟨c, r, col, e1, e2, -, e4, e5, e6, -⟩ := scan_string_sound _ false _ res.lexer hloop
    have hspan : res.lexer.span = c := by
      unfold TSLexer.span
      rw [e2]
      rfl
    rw [hspan]
    exact ⟨e6 rfl, e4, e5, r, e1⟩
  · cases hE : valid ERROR_SENTINEL with
    | true => exact ⟨_, scan_of_error s _ valid hE, rfl, rfl⟩
    | false =>
      refine ⟨_, scan_of_string s _ valid hE (fun hp => hP ⟨hE, hp.1, hp.2⟩) hS, ?_, rfl⟩
      exact scan_string_at_delimiter rest hr _ _ rfl

/-- Witness of C8: the span `#` returned before `#{`, and the refusals at a quote, at a
backslash and at `#{`. -/
theorem string_content_never_empty_witness :
    (scan create (start [HASH, HASH, LBRACE] 1 INDENT) (only STRING_CONTENT)).map
        (fun r => (r.returned, r.lexer.result_symbol, r.lexer.span))
      = some (true, STRING_CONTENT, [HASH]) ∧
    (∃ res, scan create (start [DQUOTE] 1 INDENT) (only STRING_CONTENT) = some res ∧
      res.returned = false ∧ res.scanner = create) ∧
    (∃ res, scan create (start [BACKSLASH, 110] 1 INDENT) (only STRING_CONTENT) = some res ∧
      res.returned = false ∧ res.scanner = create) ∧
    (∃ res, scan create (start [HASH, LBRACE] 1 INDENT) (only STRING_CONTENT) = some res ∧
      res.returned = false ∧ res.scanner = create) :=
  ⟨rfl,
    (string_content_never_empty create [DQUOTE] 1 INDENT (only STRING_CONTENT)).2 rfl rfl
      (by decide),
    (string_content_never_empty create [BACKSLASH, 110] 1 INDENT (only STRING_CONTENT)).2 rfl rfl
      (by decide),
    (string_content_never_empty create [HASH, LBRACE] 1 INDENT (only STRING_CONTENT)).2 rfl rfl
      (by decide)⟩

/-- Counterexample to C8 as stated: at a quote with STRING_CONTENT acceptable, DEDENT
acceptable too and one DEDENT pending, the call does not refuse: it emits DEDENT. -/
theorem string_scan_emits_pending_dedent :
    dedent_or_string STRING_CONTENT = true ∧ starts_delimiter [DQUOTE] = true ∧
      pending_one.stack = [2, 4] ∧ pending_one.dedent_count = 1 ∧
      (scan pending_one (start [DQUOTE] 1 INDENT) dedent_or_string).map ScanResult.view
        = some (true, DEDENT, [2], 0, [DQUOTE], 1) :=
  ⟨rfl, rfl, rfl, rfl, rfl⟩

/-- The string loop refuses when a line break comes before any delimiter. -/
theorem scan_string_break (nl : Nat) (q : List Nat) (hnl : is_break nl = true) (p : List Nat)
    (n : Nat) (has_content : Bool) (lx : TSLexer) (hrest : lx.rest = p ++ nl :: q)
    (hplain : ∀ x ∈ p, is_plain x = true) (hop : has_opener p = false) :
    (scan_string n has_content lx).1 = false := by
  have hnl' : nl = LF ∨ nl = CR := by simpa [is_break] using hnl
  induction p generalizing n has_content lx with
  | nil =>
    cases n with
    | zero => rfl
    | succ n =>
      have hrest' : lx.rest = nl :: q := hrest
      unfold scan_string
      rw [eof_of_rest lx nl q hrest', lookahead_of_rest lx nl q hrest']
      have h1 : ¬ (nl = DQUOTE ∨ nl = SQUOTE) := by rcases hnl' with rfl | rfl <;> decide
      have h2 : ¬ nl = BACKSLASH := by rcases hnl' with rfl | rfl <;> decide
      have h3 : ¬ nl = HASH := by rcases hnl' with rfl | rfl <;> decide
      simp only [Bool.false_eq_true, if_false, if_neg h1, if_neg h2, if_neg h3, if_pos hnl']
  | cons x p ih =>
    cases n with
    | zero => rfl
    | succ n =>
      have hrest' : lx.rest = x :: (p ++ nl :: q) := hrest
      obtain ⟨hq, hb, hbr⟩ := plain_cases (hplain x (List.mem_cons_self _ _))
      unfold scan_string
      rw [eof_of_rest lx x _ hrest', lookahead_of_rest lx x _ hrest']
      simp only [Bool.false_eq_true, if_false, if_neg hq, if_neg hb, if_neg hbr]
      by_cases hh : x = HASH
      · rw [if_pos hh]
        have hadv := advance_rest lx.mark_end x _ hrest'
        have hla1 : ¬ (advance lx.mark_end).lookahead = LBRACE := by
          unfold TSLexer.lookahead
          rw [hadv.1]
          refine next_ne_lbrace p (nl :: q) (by rw [← hh]; exact hop) ?_
          show nl ≠ LBRACE
          rcases hnl' with rfl | rfl <;> decide
        rw [if_neg hla1]
        exact ih n true _ hadv.1 (fun y hy => hplain y (List.mem_cons_of_mem _ hy))
          (has_opener_tail hop)
      · rw [if_neg hh]
        have hadv := advance_rest lx x _ hrest'
        exact ih n true _ hadv.1 (fun y hy => hplain y (List.mem_cons_of_mem _ hy))
          (has_opener_tail hop)

/-- C9, amended: when, reading from the cursor, a line break comes before any quote,
backslash or `#{`, a call with STRING_CONTENT acceptable returns no token, whatever
content precedes the line break, and leaves the state unchanged, unless it emits a pending
DEDENT (ERROR_SENTINEL not acceptable, DEDENT acceptable and the counter positive). -/
theorem unterminated_string_refused (s : Scanner) (lx : TSLexer) (p q : List Nat) (nl : Nat)
    (valid : TokenType → Bool) (hrest : lx.rest = p ++ nl :: q)
    (hplain : ∀ x ∈ p, is_plain x = true) (hop : has_opener p = false)
    (hnl : is_break nl = true) (hS : valid STRING_CONTENT = true)
    (hP : ¬ (valid ERROR_SENTINEL = false ∧ valid DEDENT = true ∧ s.dedent_count > 0)) :
    ∃ res, scan s lx valid = some res ∧ res.returned = false ∧ res.scanner = s := by
  cases hE : valid ERROR_SENTINEL with
  | true => exact ⟨_, scan_of_error s _ valid hE, rfl, rfl⟩
  | false =>
    refine ⟨_, scan_of_string s _ valid hE (fun hp => hP ⟨hE, hp.1, hp.2⟩) hS, ?_, rfl⟩
    exact scan_string_break nl q hnl p _ false lx hrest hplain hop

/-- Witness of C9: the content `ab#` cut by a line feed, on the stack `[2, 4]`. -/
theorem unterminated_string_refused_witness :
    ∃ res, scan two_levels (start ([97, 98, HASH] ++ LF :: [DQUOTE]) 1 INDENT)
        (only STRING_CONTENT) = some res ∧ res.returned = false ∧ res.scanner = two_levels :=
  unterminated_string_refused two_levels (start ([97, 98, HASH] ++ LF :: [DQUOTE]) 1 INDENT)
    [97, 98, HASH] [DQUOTE] LF (only STRING_CONTENT) rfl (by decide) rfl rfl rfl (by decide)

/-- Counterexample to C9 as stated: a line break comes before any delimiter, STRING_CONTENT
and DEDENT are acceptable and one DEDENT is pending; the call returns the token DEDENT and
changes the state from stack `[2, 4]`, counter 1 to stack `[2]`, counter 0. -/
theorem unterminated_string_emits_pending_dedent :
    dedent_or_string STRING_CONTENT = true ∧ pending_one.stack = [2, 4] ∧
      pending_one.dedent_count = 1 ∧
      (scan pending_one (start ([97] ++ LF :: [DQUOTE]) 1 INDENT) dedent_or_string).map
        ScanResult.view = some (true, DEDENT, [2], 0, [97, LF, DQUOTE], 1) :=
  ⟨rfl, rfl, rfl, rfl⟩

/-- The body of `scan` with the whitespace loops named. -/
theorem scan_eq (s : Scanner) (lx : TSLexer) (valid : TokenType → Bool) :
    scan s lx valid =
      if valid ERROR_SENTINEL then some ⟨false, s, lx⟩
      else if valid DEDENT ∧ s.dedent_count > 0 then
        some ⟨true,
          { s with
            dedent_count := s.dedent_count - 1
            stack_size := if s.stack_size > 0 then s.stack_size - 1 else s.stack_size },
          { lx with result_symbol := DEDENT }⟩
      else if valid STRING_CONTENT then
        some ⟨(scan_string lx.rest.length false lx).1, s, (scan_string lx.rest.length false lx).2⟩
      else if valid NEWLINE ∧ found_newline lx then
        (current_indent s).bind fun _ =>
          some ⟨true,
            if (after_whitespace lx).eof then { s with dedent_count := s.stack_size } else s,
            { (after_whitespace lx).mark_end with result_symbol := NEWLINE }⟩
      else scan_indent s (after_whitespace lx) valid := rfl

theorem scan_dedent_valid (s : Scanner) (lx : TSLexer) (valid : TokenType → Bool)
    (r : ScanResult) (h : scan_dedent s lx valid = some r) (hret : r.returned = true) :
    valid DEDENT = true := by
  unfold scan_dedent at h
  split at h
  · assumption
  · cases h; cases hret

theorem scan_indent_valid (s : Scanner) (lx : TSLexer) (valid : TokenType → Bool)
    (r : ScanResult) (h : scan_indent s lx valid = some r) (hret : r.returned = true) :
    valid r.lexer.result_symbol = true := by
  unfold scan_indent at h
  split at h
  · rename_i hI
    simp only [Option.bind_eq_some] at h
    obtain ⟨current, -, h⟩ := h
    split at h
    · simp only [Option.map_eq_some'] at h
      obtain ⟨s2, -, h⟩ := h
      cases h
      exact hI
    · rw [scan_dedent_symbol _ _ _ _ h hret]
      exact scan_dedent_valid _ _ _ _ h hret
  · rw [scan_dedent_symbol _ _ _ _ h hret]
    exact scan_dedent_valid _ _ _ _ h hret

theorem scan_string_symbol (n : Nat) (has_content : Bool) (lx lx1 : TSLexer)
    (h : scan_string n has_content lx = (true, lx1)) : lx1.result_symbol = STRING_CONTENT := by
  obtain ⟨c, r, col, -, -, e3, -⟩ := scan_string_sound n has_content lx lx1 h
  exact e3

/-- C11: whenever `scan` returns true, the result symbol it set is a member of the
accepted set and is one of INDENT, DEDENT, NEWLINE and STRING_CONTENT. -/
theorem only_accepted_tokens (s : Scanner) (lx : TSLexer) (valid : TokenType → Bool)
    (r : ScanResult) (h : scan s lx valid = some r) (hret : r.returned = true) :
    valid r.lexer.result_symbol = true ∧
      (r.lexer.result_symbol = INDENT ∨ r.lexer.result_symbol = DEDENT ∨
        r.lexer.result_symbol = NEWLINE ∨ r.lexer.result_symbol = STRING_CONTENT) := by
  rw [scan_eq] at h
  split at h
  · cases h; cases hret
  · split at h
    · rename_i hp
      cases h
      exact ⟨hp.1, Or.inr (Or.inl rfl)⟩
    · split at h
      · rename_i hS
        cases h
        have hsym := scan_string_symbol lx.rest.length false lx
          (scan_string lx.rest.length false lx).2 (by
            have : (scan_string lx.rest.length false lx).1 = true := hret
            rw [← this])
        refine ⟨?_, Or.inr (Or.inr (Or.inr hsym))⟩
        show valid (scan_string lx.rest.length false lx).2.result_symbol = true
        rw [hsym]
        exact hS
      · split at h
        · rename_i hN
          simp only [Option.bind_eq_some] at h
          obtain ⟨c, -, h⟩ := h
          cases h
          exact ⟨hN.1, Or.inr (Or.inr (Or.inl rfl))⟩
        · refine ⟨scan_indent_valid _ _ _ _ h hret, ?_⟩
          rcases scan_indent_symbol _ _ _ _ h hret with h1 | h1
          · exact Or.inl h1
          · exact Or.inr (Or.inl h1)

/-- Witness of C11: every symbol but ERROR_SENTINEL acceptable, the cursor before a line
break: NEWLINE is returned. -/
theorem only_accepted_tokens_witness :
    (scan two_levels (start [LF, 120] 5 INDENT) layout_symbols).map
        (fun r => (r.returned, r.lexer.result_symbol)) = some (true, NEWLINE) ∧
      layout_symbols NEWLINE = true ∧
      (NEWLINE = INDENT ∨ NEWLINE = DEDENT ∨ NEWLINE = NEWLINE ∨ NEWLINE = STRING_CONTENT) :=
  ⟨rfl, only_accepted_tokens two_levels (start [LF, 120] 5 INDENT) layout_symbols
    ⟨true, two_levels, { (start [120] 0 INDENT).mark_end with result_symbol := NEWLINE }⟩
    rfl rfl⟩

/-- C13: whenever ERROR_SENTINEL is acceptable, whatever else is acceptable and whatever
the pending-dedent counter, `scan` returns false and leaves the cursor, the stack and the
counter as they are. -/
theorem error_probe_refused (s : Scanner) (lx : TSLexer) (valid : TokenType → Bool)
    (hE : valid ERROR_SENTINEL = true) :
    ∃ r, scan s lx valid = some r ∧ r.returned = false ∧ r.lexer = lx ∧ r.scanner = s :=
  ⟨_, scan_of_error s lx valid hE, rfl, rfl, rfl⟩

/-- Witness of C13: every symbol acceptable, one DEDENT pending on the stack `[2, 4]`. -/
theorem error_probe_refused_witness :
    every_symbol ERROR_SENTINEL = true ∧ pending_one.dedent_count = 1 ∧
      ∃ r, scan pending_one (start [LF, 120] 5 INDENT) every_symbol = some r ∧
        r.returned = false ∧ r.lexer = start [LF, 120] 5 INDENT ∧ r.scanner = pending_one :=
  ⟨rfl, rfl, error_probe_refused pending_one (start [LF, 120] 5 INDENT) every_symbol rfl⟩

theorem scan_dedent_refusal (s : Scanner) (lx : TSLexer) (valid : TokenType → Bool)
    (r : ScanResult) (h : scan_dedent s lx valid = some r) (hret : r.returned = false) :
    r.scanner = s := by
  unfold scan_dedent at h
  split at h
  · simp only [Option.bind_eq_some] at h
    obtain ⟨current, -, h⟩ := h
    split at h
    · simp only [Option.bind_eq_some] at h
      obtain ⟨dedents, -, h⟩ := h
      split at h
      · cases h; cases hret
      · cases h; rfl
    · cases h; rfl
  · cases h; rfl

theorem scan_indent_refusal (s : Scanner) (lx : TSLexer) (valid : TokenType → Bool)
    (r : ScanResult) (h : scan_indent s lx valid = some r) (hret : r.returned = false) :
    r.scanner = s := by
  unfold scan_indent at h
  split at h
  · simp only [Option.bind_eq_some] at h
    obtain ⟨current, -, h⟩ := h
    split at h
    · simp only [Option.map_eq_some'] at h
      obtain ⟨s2, -, h⟩ := h
      cases h
      cases hret
    · exact scan_dedent_refusal _ _ _ _ h hret
  · exact scan_dedent_refusal _ _ _ _ h hret

/-- C18: a call of `scan` that returns false leaves the depth, every stored width and the
pending-dedent counter exactly as they were, and so does a call that returns
STRING_CONTENT. -/
theorem refusal_keeps_state (s : Scanner) (lx : TSLexer) (valid : TokenType → Bool)
    (r : ScanResult) (h : scan s lx valid = some r)
    (hret : r.returned = false ∨ (r.returned = true ∧ r.lexer.result_symbol = STRING_CONTENT)) :
    r.scanner = s := by
  rw [scan_eq] at h
  split at h
  · cases h; rfl
  · split at h
    · cases h
      rcases hret with h1 | ⟨-, h2⟩
      · cases h1
      · cases h2
    · split at h
      · cases h; rfl
      · split at h
        · simp only [Option.bind_eq_some] at h
          obtain ⟨c, -, h⟩ := h
          cases h
          rcases hret with h1 | ⟨-, h2⟩
          · cases h1
          · cases h2
        · rcases hret with h1 | ⟨h1, h2⟩
          · exact scan_indent_refusal _ _ _ _ h h1
          · rcases scan_indent_symbol _ _ _ _ h h1 with h3 | h3 <;> rw [h3] at h2 <;> cases h2

/-- Witness of C18: on the stack `[2, 4]` a refusal at the end of the input and a
STRING_CONTENT token. -/
theorem refusal_keeps_state_witness :
    (∀ r, scan two_levels (start [] 5 INDENT) layout_symbols = some r →
      r.returned = false → r.scanner = two_levels) ∧
    (∀ r, scan two_levels (start [97, DQUOTE] 5 INDENT) (only STRING_CONTENT) = some r →
      r.returned = true → r.lexer.result_symbol = STRING_CONTENT → r.scanner = two_levels) ∧
    (scan two_levels (start [] 5 INDENT) layout_symbols).map (fun r => r.returned)
      = some false ∧
    (scan two_levels (start [97, DQUOTE] 5 INDENT) (only STRING_CONTENT)).map
      (fun r => (r.returned, r.lexer.result_symbol)) = some (true, STRING_CONTENT) :=
  ⟨fun r h hret => refusal_keeps_state two_levels _ layout_symbols r h (Or.inl hret),
    fun r h hret hsym => refusal_keeps_state two_levels _ (only STRING_CONTENT) r h
      (Or.inr ⟨hret, hsym⟩), rfl, rfl⟩

theorem after_whitespace_rest (lx : TSLexer) :
    (after_whitespace lx).rest = (lx.rest.dropWhile is_blank).dropWhile is_space :=
  (skip_lines_skip_blanks lx).1

theorem found_newline_eq (lx : TSLexer) :
    found_newline lx = is_break ((lx.rest.dropWhile is_blank).headD 0) :=
  (skip_lines_skip_blanks lx).2

/-- A call that finds a line break has consumed at least one character. -/
theorem newline_consumes (lx : TSLexer) (h : found_newline lx = true) :
    (after_whitespace lx).rest.length < lx.rest.length := by
  rw [found_newline_eq] at h
  rw [after_whitespace_rest]
  have h1 := (List.dropWhile_sublist is_blank (l := lx.rest)).length_le
  cases hl : lx.rest.dropWhile is_blank with
  | nil => rw [hl] at h; cases h
  | cons c cs =>
    rw [hl] at h h1
    have hc : is_space c = true := by
      have : is_break c = true := h
      simp [is_space, this]
    have h2 := (List.dropWhile_sublist is_space (l := cs)).length_le
    simp only [List.dropWhile, hc]
    simp only [List.length_cons] at h1
    omega

/-- The string loop never moves the cursor back, and moves it forward when it returns
true without content passed before. -/
theorem scan_string_consumes (n : Nat) (has_content : Bool) (lx lx1 : TSLexer)
    (h : scan_string n has_content lx = (true, lx1)) :
    lx1.rest.length ≤ lx.rest.length ∧
      (has_content = false → lx1.rest.length < lx.rest.length) := by
  induction n generalizing has_content lx with
  | zero => simp [scan_string] at h
  | succ n ih =>
    unfold scan_string at h
    cases hrest : lx.rest with
    | nil =>
      have heof : lx.eof = true := by unfold TSLexer.eof; rw [hrest]; rfl
      rw [heof] at h
      simp at h
    | cons d rs =>
      have hla := lookahead_of_rest lx d rs hrest
      have heof := eof_of_rest lx d rs hrest
      rw [heof, hla] at h
      simp only [Bool.false_eq_true, if_false] at h
      by_cases hq : d = DQUOTE ∨ d = SQUOTE
      · rw [if_pos hq] at h
        simp only [Prod.mk.injEq] at h
        obtain ⟨h1, h2⟩ := h
        subst h2
        refine ⟨?_, fun hf => by rw [hf] at h1; cases h1⟩
        show lx.rest.length ≤ (d :: rs).length
        rw [hrest]
      · rw [if_neg hq] at h
        by_cases hb : d = BACKSLASH
        · rw [if_pos hb] at h
          simp only [Prod.mk.injEq] at h
          obtain ⟨h1, h2⟩ := h
          subst h2
          refine ⟨?_, fun hf => by rw [hf] at h1; cases h1⟩
          show lx.rest.length ≤ (d :: rs).length
          rw [hrest]
        · rw [if_neg hb] at h
          by_cases hh : d = HASH
          · rw [if_pos hh] at h
            have hadv := advance_rest lx.mark_end d rs hrest
            by_cases hl : (advance lx.mark_end).lookahead = LBRACE
            · rw [if_pos hl] at h
              simp only [Prod.mk.injEq] at h
              obtain ⟨h1, h2⟩ := h
              subst h2
              refine ⟨?_, fun hf => by rw [hf] at h1; cases h1⟩
              show (advance lx.mark_end).rest.length ≤ (d :: rs).length
              rw [hadv.1]
              simp
            · rw [if_neg hl] at h
              have := (ih true (advance lx.mark_end) h).1
              rw [hadv.1] at this
              simp only [List.length_cons]
              exact ⟨by omega, fun _ => by omega⟩
          · rw [if_neg hh] at h
            by_cases hbr : d = LF ∨ d = CR
            · rw [if_pos hbr] at h
              simp at h
            · rw [if_neg hbr] at h
              have hadv := advance_rest lx d rs hrest
              have := (ih true (advance lx) h).1
              rw [hadv.1] at this
              simp only [List.length_cons]
              exact ⟨by omega, fun _ => by omega⟩

/-- C12, amended: a call of `scan` that produces NEWLINE or STRING_CONTENT has advanced
the cursor by at least one character. -/
theorem minimum_consumption (s : Scanner) (lx : TSLexer) (valid : TokenType → Bool)
    (r : ScanResult) (h : scan s lx valid = some r) (hret : r.returned = true)
    (hsym : r.lexer.result_symbol = NEWLINE ∨ r.lexer.result_symbol = STRING_CONTENT) :
    r.lexer.rest.length < lx.rest.length := by
  rw [scan_eq] at h
  split at h
  · cases h; cases hret
  · split at h
    · cases h
      rcases hsym with h1 | h1 <;> cases h1
    · split at h
      · cases h
        have hloop : scan_string lx.rest.length false lx
            = (true, (scan_string lx.rest.length false lx).2) := by
          have : (scan_string lx.rest.length false lx).1 = true := hret
          rw [← this]
        exact (scan_string_consumes _ _ _ _ hloop).2 rfl
      · split at h
        · rename_i hN
          simp only [Option.bind_eq_some] at h
          obtain ⟨c, -, h⟩ := h
          cases h
          exact newline_consumes lx hN.2
        · rcases scan_indent_symbol _ _ _ _ h hret with h1 | h1 <;>
            rcases hsym with h2 | h2 <;> rw [h1] at h2 <;> cases h2

/-- Witness of C12: NEWLINE over a line break and two spaces before `x`. -/
theorem minimum_consumption_witness :
    (scan create (start [LF, SPACE, SPACE, 120] 1 INDENT) (only NEWLINE)).map
        (fun r => (r.returned, r.lexer.result_symbol, r.lexer.rest)) = some (true, NEWLINE, [120]) ∧
      [120].length < (start [LF, SPACE, SPACE, 120] 1 INDENT).rest.length :=
  ⟨rfl, minimum_consumption create (start [LF, SPACE, SPACE, 120] 1 INDENT) (only NEWLINE)
    ⟨true, create, { (start [120] 2 INDENT).mark_end with result_symbol := NEWLINE }⟩
    rfl rfl (Or.inl rfl)⟩

/-- Counterexample to C12 as stated: on the content character `x` at column 2, with the
empty stack and INDENT acceptable, `scan` produces INDENT and the unread text is the same
before and after: no character is consumed. -/
theorem indent_without_consumption :
    (start [120] 2 NEWLINE).rest = [120] ∧
      (scan create (start [120] 2 NEWLINE) (only INDENT)).map ScanResult.view
        = some (true, INDENT, [2], 0, [120], 2) :=
  ⟨rfl, rfl⟩

theorem low_byte (w : Nat) : w &&& 0xFF = w % 2 ^ 8 :=
  Nat.and_pow_two_sub_one_eq_mod w 8

theorem high_byte (w : Nat) (hw : w < 2 ^ 16) : (w >>> 8) &&& 0xFF = w / 2 ^ 8 := by
  have h : (w >>> 8) &&& 0xFF = (w >>> 8) % 2 ^ 8 := Nat.and_pow_two_sub_one_eq_mod _ 8
  rw [h, Nat.shiftRight_eq_div_pow]
  exact Nat.mod_eq_of_lt (by omega)

/-- C14: for a state of depth `d ≤ 100` (8-bit counter, 16-bit widths) `serialize` writes
exactly `2 + 2 * d` bytes, fewer than the capacity of the buffer: byte 0 is `d`, byte 1 is
the pending-dedent counter, and bytes `2 + 2 * i` and `3 + 2 * i` are the low and the high
8 bits of the `i`-th width.  The function only reads the state. -/
theorem serialized_layout (s : Scanner) (hk : s.stack_size ≤ MAX_INDENT_DEPTH)
    (hc : s.dedent_count < 2 ^ 8) (hw : ∀ i, i < s.stack_size → s.indent_stack i < 2 ^ 16) :
    ∃ buffer, serialize s = some buffer ∧ buffer.length = 2 + 2 * s.stack_size ∧
      buffer.length < TREE_SITTER_SERIALIZATION_BUFFER_SIZE ∧
      buffer.getD 0 0 = s.stack_size ∧ buffer.getD 1 0 = s.dedent_count ∧
      ∀ i, i < s.stack_size →
        buffer.getD (2 + 2 * i) 0 = s.indent_stack i % 2 ^ 8 ∧
        buffer.getD (3 + 2 * i) 0 = s.indent_stack i / 2 ^ 8 ∧
        buffer.getD (2 + 2 * i) 0 + 2 ^ 8 * buffer.getD (3 + 2 * i) 0 = s.indent_stack i := by
  obtain ⟨out, hout, hl, h0, h1, hent⟩ := serialize_spec s hk
  have hcap : MAX_INDENT_DEPTH = 100 := rfl
  have hbuf : TREE_SITTER_SERIALIZATION_BUFFER_SIZE = 1024 := rfl
  refine ⟨out, hout, hl, by omega, h0, by rw [h1]; exact Nat.mod_eq_of_lt hc, fun i hi => ?_⟩
  have e1 : out.getD (2 + 2 * i) 0 = s.indent_stack i % 2 ^ 8 := by
    rw [(hent i hi).1, low_byte]
  have e2 : out.getD (3 + 2 * i) 0 = s.indent_stack i / 2 ^ 8 := by
    rw [(hent i hi).2, high_byte _ (hw i hi)]
  refine ⟨e1, e2, ?_⟩
  rw [e1, e2]
  omega

/-- Witness of C14: the stack `[2, 4]` with one DEDENT pending. -/
theorem serialized_layout_witness :
    serialize pending_one = some [2, 1, 2, 0, 4, 0] ∧
      ∃ buffer, serialize pending_one = some buffer ∧
        buffer.length = 2 + 2 * pending_one.stack_size ∧
        buffer.length < TREE_SITTER_SERIALIZATION_BUFFER_SIZE ∧
        buffer.getD 0 0 = pending_one.stack_size ∧ buffer.getD 1 0 = pending_one.dedent_count ∧
        ∀ i, i < pending_one.stack_size →
          buffer.getD (2 + 2 * i) 0 = pending_one.indent_stack i % 2 ^ 8 ∧
          buffer.getD (3 + 2 * i) 0 = pending_one.indent_stack i / 2 ^ 8 ∧
          buffer.getD (2 + 2 * i) 0 + 2 ^ 8 * buffer.getD (3 + 2 * i) 0
            = pending_one.indent_stack i :=
  ⟨rfl, serialized_layout pending_one (by decide) (by decide) (by decide)⟩

set_option maxRecDepth 8000 in
/-- C15, the code at the failing inputs: the two bytes 3 and 0, restored into an instance
that held the stack `[2, 4, 6]`, give depth 3 with the old widths 2, 4 and 6 on the stack,
where the buffer holds no entry; the two bytes 200 and 0 give depth 200; and the byte 101
followed by the counter and 101 entries makes the loop write outside the array. -/
theorem truncated_buffer_keeps_declared_depth :
    (deserialize three_levels [3, 0]).map (fun s => (s.stack_size, s.stack, s.dedent_count))
        = some (3, [2, 4, 6], 0) ∧
      (deserialize create [200, 0]).map (fun s => s.stack_size) = some 200 ∧
      (deserialize create ([101, 0] ++ List.replicate 202 1)).isNone = true :=
  ⟨rfl, rfl, rfl⟩

theorem count_dedents_le (s : Scanner) (col n d x : Nat)
    (h : count_dedents s col n d = some x) : x ≤ d + n := by
  induction n generalizing d with
  | zero =>
    simp only [count_dedents, Option.some.injEq] at h
    omega
  | succ n ih =>
    unfold count_dedents at h
    simp only [Option.bind_eq_some] at h
    obtain ⟨w, -, h⟩ := h
    split at h
    · have h1 := ih _ h
      have h2 : (d + 1) % 2 ^ 8 ≤ d + 1 := Nat.mod_le _ _
      omega
    · simp only [Option.some.injEq] at h
      omega

theorem count_dedents_total (s : Scanner) (col n d : Nat) (hn : n ≤ MAX_INDENT_DEPTH) :
    ∃ x, count_dedents s col n d = some x := by
  induction n generalizing d with
  | zero => exact ⟨d, rfl⟩
  | succ n ih =>
    have hread : s.read n = some (s.indent_stack n) := by
      unfold Scanner.read; rw [if_pos (by omega)]
    unfold count_dedents
    rw [hread, Option.some_bind]
    split
    · exact ih _ (by omega)
    · exact ⟨d, rfl⟩

theorem scan_dedent_total (s : Scanner) (lx : TSLexer) (valid : TokenType → Bool)
    (hk : s.stack_size ≤ MAX_INDENT_DEPTH) : ∃ r, scan_dedent s lx valid = some r := by
  unfold scan_dedent
  split
  · rw [current_indent_of_le s hk, Option.some_bind]
    split
    · obtain ⟨x, hx⟩ := count_dedents_total s (lx.get_column % 2 ^ 16) s.stack_size 0 hk
      rw [hx, Option.some_bind]
      split
      · exact ⟨_, rfl⟩
      · exact ⟨_, rfl⟩
    · exact ⟨_, rfl⟩
  · exact ⟨_, rfl⟩

theorem scan_indent_total (s : Scanner) (lx : TSLexer) (valid : TokenType → Bool)
    (hk : s.stack_size ≤ MAX_INDENT_DEPTH) : ∃ r, scan_indent s lx valid = some r := by
  unfold scan_indent
  split
  · rw [current_indent_of_le s hk, Option.some_bind]
    dsimp only
    by_cases hcond : (indent_width lx).1 > s.top ∧ ¬ (indent_width lx).2.eof = true ∧
        (indent_width lx).2.lookahead ≠ LF ∧ (indent_width lx).2.lookahead ≠ CR
    · rw [if_pos hcond]
      by_cases hlt : s.stack_size < MAX_INDENT_DEPTH
      · simp only [Scanner.write, if_pos hlt, Option.map_some']
        exact ⟨_, rfl⟩
      · simp only [if_neg hlt, Option.map_some']
        exact ⟨_, rfl⟩
    · rw [if_neg hcond]
      exact scan_dedent_total s _ valid hk
  · exact scan_dedent_total s _ valid hk

/-- With the stack within the array no access of `scan` falls outside it. -/
theorem scan_total (s : Scanner) (lx : TSLexer) (valid : TokenType → Bool)
    (hk : s.stack_size ≤ MAX_INDENT_DEPTH) : ∃ r, scan s lx valid = some r := by
  rw [scan_eq]
  split
  · exact ⟨_, rfl⟩
  · split
    · exact ⟨_, rfl⟩
    · split
      · exact ⟨_, rfl⟩
      · split
        · rw [current_indent_of_le s hk, Option.some_bind]
          exact ⟨_, rfl⟩
        · exact scan_indent_total s _ valid hk

theorem scan_dedent_counter_le (s : Scanner) (lx : TSLexer) (valid : TokenType → Bool)
    (r : ScanResult) (h : scan_dedent s lx valid = some r)
    (hc : s.dedent_count ≤ s.stack_size) : r.scanner.dedent_count ≤ r.scanner.stack_size := by
  unfold scan_dedent at h
  split at h
  · simp only [Option.bind_eq_some] at h
    obtain ⟨current, -, h⟩ := h
    split at h
    · simp only [Option.bind_eq_some] at h
      obtain ⟨dedents, hd, h⟩ := h
      have hle := count_dedents_le _ _ _ _ _ hd
      split at h
      · cases h
        show dedents - 1 ≤ s.stack_size - 1
        omega
      · cases h; exact hc
    · cases h; exact hc
  · cases h; exact hc

theorem scan_indent_counter_le (s : Scanner) (lx : TSLexer) (valid : TokenType → Bool)
    (r : ScanResult) (h : scan_indent s lx valid = some r)
    (hc : s.dedent_count ≤ s.stack_size) : r.scanner.dedent_count ≤ r.scanner.stack_size := by
  unfold scan_indent at h
  split at h
  · simp only [Option.bind_eq_some] at h
    obtain ⟨current, -, h⟩ := h
    split at h
    · simp only [Option.map_eq_some'] at h
      obtain ⟨s2, hs2, h⟩ := h
      cases h
      split at hs2
      · rename_i hlt
        simp only [Scanner.write, if_pos hlt, Option.map_some', Option.some.injEq] at hs2
        subst hs2
        show s.dedent_count ≤ s.stack_size + 1
        omega
      · cases hs2; exact hc
    · exact scan_dedent_counter_le _ _ _ _ h hc
  · exact scan_dedent_counter_le _ _ _ _ h hc

theorem scan_counter_le (s : Scanner) (lx : TSLexer) (valid : TokenType → Bool)
    (r : ScanResult) (h : scan s lx valid = some r)
    (hc : s.dedent_count ≤ s.stack_size) : r.scanner.dedent_count ≤ r.scanner.stack_size := by
  rw [scan_eq] at h
  split at h
  · cases h; exact hc
  · split at h
    · rename_i hp
      cases h
      show s.dedent_count - 1 ≤ (if s.stack_size > 0 then s.stack_size - 1 else s.stack_size)
      have := hp.2
      split <;> omega
    · split at h
      · cases h; exact hc
      · split at h
        · simp only [Option.bind_eq_some] at h
          obtain ⟨c, -, h⟩ := h
          cases h
          dsimp only
          split
          · exact le_refl _
          · exact hc
        · exact scan_indent_counter_le _ _ _ _ h hc

theorem counter_le_of_reachable (s : Scanner) (h : Reachable s) :
    s.dedent_count ≤ s.stack_size := by
  induction h with
  | create => exact le_refl _
  | scan s lx valid r _ hscan ih => exact scan_counter_le s lx valid r hscan ih
  | restore s t buffer t1 hs hser hde ih =>
    have hinv := stackInv_of_reachable s hs
    obtain ⟨b, t2, h1, h2, hsz, hdc, -⟩ :=
      roundtrip_core s t hinv.1 (fun i hi => (hinv.2.1 i hi).2)
    rw [hser] at h1
    cases h1
    rw [hde] at h2
    cases h2
    rw [hsz, hdc]
    exact le_trans (Nat.mod_le _ _) ih

/-- C19: in every state reachable from `create` through calls of `scan` (also when
`serialize` and `deserialize` of the current state come in between), the pending-dedent
counter is at most the depth and the depth at most 100; so a pending DEDENT always finds a
level to pop, depth and counter stay within 8 bits, and no call of `scan` on such a state
reads or writes outside the 100-entry array. -/
theorem counter_and_depth_bounds (s : Scanner) (h : Reachable s) :
    s.dedent_count ≤ s.stack_size ∧ s.stack_size ≤ MAX_INDENT_DEPTH ∧
      (0 < s.dedent_count → 0 < s.stack_size) ∧
      s.stack_size < 2 ^ 8 ∧ s.dedent_count < 2 ^ 8 ∧
      ∀ lx valid, ∃ r, scan s lx valid = some r := by
  have h1 := counter_le_of_reachable s h
  have h2 := (stackInv_of_reachable s h).1
  have hcap : MAX_INDENT_DEPTH = 100 := rfl
  exact ⟨h1, h2, fun hp => by omega, by omega, by omega, fun lx valid => scan_total s lx valid h2⟩

theorem dedent_pending_reachable : Reachable dedent_pending :=
  Reachable.scan three_levels (start [120] 3 NEWLINE) (only DEDENT) ⟨true, dedent_pending, _⟩
    (Reachable.scan two_levels (start [120] 6 NEWLINE) (only INDENT) ⟨true, three_levels, _⟩
      two_levels_reachable rfl) rfl

/-- Witness of C19: the stack `[2, 4]` with one DEDENT pending, reached by three INDENT
scans and a DEDENT scan at column 3. -/
theorem counter_and_depth_bounds_witness :
    Reachable dedent_pending ∧ dedent_pending.stack = [2, 4] ∧
      dedent_pending.dedent_count = 1 ∧
      dedent_pending.dedent_count ≤ dedent_pending.stack_size ∧
      dedent_pending.stack_size ≤ MAX_INDENT_DEPTH ∧
      (0 < dedent_pending.dedent_count → 0 < dedent_pending.stack_size) ∧
      dedent_pending.stack_size < 2 ^ 8 ∧ dedent_pending.dedent_count < 2 ^ 8 ∧
      ∀ lx valid, ∃ r, scan dedent_pending lx valid = some r :=
  ⟨dedent_pending_reachable, rfl, rfl,
    counter_and_depth_bounds dedent_pending dedent_pending_reachable⟩

/-- After the whitespace loops the cursor is on no space, tab or line break. -/
theorem after_whitespace_lookahead (lx : TSLexer) :
    is_space (after_whitespace lx).lookahead = false := by
  unfold TSLexer.lookahead
  rw [after_whitespace_rest]
  cases hl : (lx.rest.dropWhile is_blank).dropWhile is_space with
  | nil => rfl
  | cons c cs =>
    cases hc : is_space c with
    | false => exact hc
    | true => exact absurd ⟨c, cs, hl, hc⟩ (head_dropWhile_not is_space _)

/-- The INDENT branch on a character that is no space, tab or line break. -/
theorem scan_indent_at_content (s : Scanner) (lx : TSLexer) (valid : TokenType → Bool)
    (hk : s.stack_size ≤ MAX_INDENT_DEPTH) (hla : is_space lx.lookahead = false)
    (hI : valid INDENT = true) :
    scan_indent s lx valid =
      if s.top < lx.column % 2 ^ 16 ∧ lx.eof = false then
        some ⟨true, if s.stack_size < MAX_INDENT_DEPTH then s.push (lx.column % 2 ^ 16) else s,
          { lx.mark_end with result_symbol := INDENT }⟩
      else scan_dedent s lx valid := by
  unfold scan_indent
  rw [if_pos hI, current_indent_of_le s hk, Option.some_bind, indent_width_at_content lx hla]
  dsimp only
  have hbr := not_break_of_not_space hla
  by_cases hcond : s.top < lx.column % 2 ^ 16 ∧ lx.eof = false
  · rw [if_pos hcond, if_pos ⟨hcond.1, by simp [hcond.2], fun h => hbr (Or.inl h),
      fun h => hbr (Or.inr h)⟩]
    by_cases hlt : s.stack_size < MAX_INDENT_DEPTH
    · simp only [Scanner.write, if_pos hlt, Option.map_some']
      rfl
    · simp only [if_neg hlt, Option.map_some']
  · rw [if_neg hcond, if_neg (by
      intro h
      exact hcond ⟨h.1, by simpa using h.2.1⟩)]

/-- C20: when `scan` reaches the INDENT decision (ERROR_SENTINEL and STRING_CONTENT not
acceptable, no pending DEDENT and no NEWLINE emitted, INDENT acceptable), on a stack within
the array: the cursor is on no space, tab or line break, the width computation of the
INDENT branch consumes nothing and yields the column reduced to 16 bits, `scan` emits
INDENT exactly when that column is greater than the top and the input is not at its end,
and the width pushed, when capacity remains, is that column. -/
theorem indent_decided_by_column (s : Scanner) (lx : TSLexer) (valid : TokenType → Bool)
    (hk : s.stack_size ≤ MAX_INDENT_DEPTH) (hE : valid ERROR_SENTINEL = false)
    (hP : ¬ (valid DEDENT = true ∧ s.dedent_count > 0)) (hS : valid STRING_CONTENT = false)
    (hN : ¬ (valid NEWLINE = true ∧ found_newline lx = true)) (hI : valid INDENT = true) :
    is_space (after_whitespace lx).lookahead = false ∧
      indent_width (after_whitespace lx)
        = ((after_whitespace lx).get_column % 2 ^ 16, after_whitespace lx) ∧
      ∃ r, scan s lx valid = some r ∧
        ((r.returned = true ∧ r.lexer.result_symbol = INDENT) ↔
          (s.top < (after_whitespace lx).get_column % 2 ^ 16 ∧
            (after_whitespace lx).eof = false)) ∧
        (r.returned = true → r.lexer.result_symbol = INDENT →
          s.stack_size < MAX_INDENT_DEPTH →
            r.scanner = s.push ((after_whitespace lx).get_column % 2 ^ 16)) := by
  have hla := after_whitespace_lookahead lx
  refine ⟨hla, indent_width_at_content _ hla, ?_⟩
  have hscan : scan s lx valid = scan_indent s (after_whitespace lx) valid := by
    rw [scan_eq, if_neg (by simp [hE]), if_neg hP, if_neg (by simp [hS]), if_neg hN]
  rw [hscan, scan_indent_at_content s _ valid hk hla hI]
  show ∃ r, (if s.top < (after_whitespace lx).column % 2 ^ 16 ∧ (after_whitespace lx).eof = false
      then _ else _) = some r ∧
    ((r.returned = true ∧ r.lexer.result_symbol = INDENT) ↔
      (s.top < (after_whitespace lx).column % 2 ^ 16 ∧ (after_whitespace lx).eof = false)) ∧
    (r.returned = true → r.lexer.result_symbol = INDENT → s.stack_size < MAX_INDENT_DEPTH →
      r.scanner = s.push ((after_whitespace lx).column % 2 ^ 16))
  by_cases hcond : s.top < (after_whitespace lx).column % 2 ^ 16 ∧ (after_whitespace lx).eof = false
  · rw [if_pos hcond]
    refine ⟨_, rfl, ⟨fun _ => hcond, fun _ => ⟨rfl, rfl⟩⟩, fun _ _ hlt => ?_⟩
    show (if s.stack_size < MAX_INDENT_DEPTH then _ else s) = _
    rw [if_pos hlt]
  · rw [if_neg hcond]
    obtain ⟨r, hr⟩ := scan_dedent_total s (after_whitespace lx) valid hk
    refine ⟨r, hr, ⟨fun h => ?_, fun h => absurd h hcond⟩, fun h1 h2 _ => ?_⟩
    · have := scan_dedent_symbol _ _ _ _ hr h.1
      rw [this] at h
      cases h.2
    · have := scan_dedent_symbol _ _ _ _ hr h1
      rw [this] at h2
      cases h2

/-- Witness of C20: two spaces before `x` on the stack `[2, 4]`, the column being 5 before
the spaces: INDENT with the width 7. -/
theorem indent_decided_by_column_witness :
    (scan two_levels (start [SPACE, SPACE, 120] 5 NEWLINE) (only INDENT)).map ScanResult.view
        = some (true, INDENT, [2, 4, 7], 0, [120], 7) ∧
      is_space (after_whitespace (start [SPACE, SPACE, 120] 5 NEWLINE)).lookahead = false ∧
      indent_width (after_whitespace (start [SPACE, SPACE, 120] 5 NEWLINE))
        = ((after_whitespace (start [SPACE, SPACE, 120] 5 NEWLINE)).get_column % 2 ^ 16,
            after_whitespace (start [SPACE, SPACE, 120] 5 NEWLINE)) ∧
      ∃ r, scan two_levels (start [SPACE, SPACE, 120] 5 NEWLINE) (only INDENT) = some r ∧
        ((r.returned = true ∧ r.lexer.result_symbol = INDENT) ↔
          (two_levels.top
              < (after_whitespace (start [SPACE, SPACE, 120] 5 NEWLINE)).get_column % 2 ^ 16 ∧
            (after_whitespace (start [SPACE, SPACE, 120] 5 NEWLINE)).eof = false)) ∧
        (r.returned = true → r.lexer.result_symbol = INDENT →
          two_levels.stack_size < MAX_INDENT_DEPTH →
            r.scanner = two_levels.push
              ((after_whitespace (start [SPACE, SPACE, 120] 5 NEWLINE)).get_column % 2 ^ 16)) :=
  ⟨rfl, indent_decided_by_column two_levels (start [SPACE, SPACE, 120] 5 NEWLINE) (only INDENT)
    (by decide) rfl (by decide) rfl (by decide) rfl⟩

theorem scan_indent_full (s : Scanner) (lx : TSLexer) (valid : TokenType → Bool)
    (r : ScanResult) (hfull : s.stack_size = MAX_INDENT_DEPTH)
    (h : scan_indent s lx valid = some r) (hret : r.returned = true)
    (hsym : r.lexer.result_symbol = INDENT) : r.scanner = s := by
  unfold scan_indent at h
  have hnlt : ¬ s.stack_size < MAX_INDENT_DEPTH := by omega
  split at h
  · simp only [Option.bind_eq_some] at h
    obtain ⟨current, -, h⟩ := h
    split at h
    · simp only [if_neg hnlt, Option.map_some', Option.some.injEq] at h
      cases h
      rfl
    · rw [scan_dedent_symbol _ _ _ _ h hret] at hsym
      cases hsym
  · rw [scan_dedent_symbol _ _ _ _ h hret] at hsym
    cases hsym

/-- C16, amended: on a stack that holds 100 levels, every call of `scan` that emits INDENT
pushes nothing and leaves depth, widths and counter unchanged; and INDENT is emitted when
`scan` reaches the INDENT decision (ERROR_SENTINEL and STRING_CONTENT not acceptable, no
pending DEDENT and no NEWLINE emitted, INDENT acceptable) with the cursor, after the
whitespace loops, before the end of the input at a column whose value reduced to 16 bits
is greater than the top. -/
theorem capacity_overflow_silent (s : Scanner) (lx : TSLexer) (valid : TokenType → Bool)
    (hfull : s.stack_size = MAX_INDENT_DEPTH) :
    (∀ r, scan s lx valid = some r → r.returned = true → r.lexer.result_symbol = INDENT →
      r.scanner = s) ∧
    (valid ERROR_SENTINEL = false → ¬ (valid DEDENT = true ∧ s.dedent_count > 0) →
      valid STRING_CONTENT = false → ¬ (valid NEWLINE = true ∧ found_newline lx = true) →
      valid INDENT = true → (after_whitespace lx).eof = false →
      s.top < (after_whitespace lx).get_column % 2 ^ 16 →
        ∃ r, scan s lx valid = some r ∧ r.returned = true ∧ r.lexer.result_symbol = INDENT ∧
          r.scanner = s) := by
  refine ⟨fun r h hret hsym => ?_, fun hE hP hS hN hI heof hcol => ?_⟩
  · rw [scan_eq] at h
    split at h
    · cases h; cases hret
    · split at h
      · cases h; cases hsym
      · split at h
        · cases h; rfl
        · split at h
          · simp only [Option.bind_eq_some] at h
            obtain ⟨c, -, h⟩ := h
            cases h
            cases hsym
          · exact scan_indent_full s _ valid r hfull h hret hsym
  · have hk : s.stack_size ≤ MAX_INDENT_DEPTH := le_of_eq hfull
    have hla := after_whitespace_lookahead lx
    have hscan : scan s lx valid = scan_indent s (after_whitespace lx) valid := by
      rw [scan_eq, if_neg (by simp [hE]), if_neg hP, if_neg (by simp [hS]), if_neg hN]
    rw [hscan, scan_indent_at_content s _ valid hk hla hI, if_pos ⟨hcol, heof⟩,
      if_neg (by omega)]
    exact ⟨_, rfl, rfl, rfl, rfl⟩

/-- Witness of C16: the full stack with the top 100 and the content character `x` at
column 101. -/
theorem capacity_overflow_silent_witness :
    full_stack.stack_size = MAX_INDENT_DEPTH ∧ full_stack.top = 100 ∧
      ∃ r, scan full_stack (start [120] 101 NEWLINE) (only INDENT) = some r ∧
        r.returned = true ∧ r.lexer.result_symbol = INDENT ∧ r.scanner = full_stack :=
  ⟨rfl, rfl, (capacity_overflow_silent full_stack (start [120] 101 NEWLINE) (only INDENT) rfl).2
    rfl (by decide) rfl (by decide) rfl rfl (by decide)⟩

set_option maxRecDepth 8000 in
/-- Counterexample to C16 as stated: on the full stack with the top 100 and INDENT
acceptable, the cursor after the whitespace loops stands on `x` at column 101, and `scan`
emits NEWLINE, not INDENT, because NEWLINE is acceptable too and a line break was passed;
and on `x` at column 65586, which is 50 once reduced to 16 bits, `scan` emits nothing. -/
theorem full_stack_without_indent :
    full_stack.stack_size = MAX_INDENT_DEPTH ∧ full_stack.top = 100 ∧
      newline_or_indent INDENT = true ∧
      (after_whitespace (start deep_line 7 DEDENT)).rest = [120] ∧
      (after_whitespace (start deep_line 7 DEDENT)).get_column = 101 ∧
      (scan full_stack (start deep_line 7 DEDENT) newline_or_indent).map
        (fun r => (r.returned, r.lexer.result_symbol)) = some (true, NEWLINE) ∧
      (after_whitespace (start [120] 65586 DEDENT)).rest = [120] ∧
      (after_whitespace (start [120] 65586 DEDENT)).get_column = 65586 ∧
      (scan full_stack (start [120] 65586 DEDENT) (only INDENT)).map (fun r => r.returned)
        = some false :=
  ⟨rfl, rfl, rfl, rfl, rfl, rfl, rfl, rfl, rfl⟩

theorem accept_of_marked (lx : TSLexer) (sym : TokenType) :
    ({ lx.mark_end with result_symbol := sym } : TSLexer).accept.rest = lx.rest := rfl

/-- C17: on a text that begins with spaces and tabs followed by a line break, a call with
NEWLINE acceptable (ERROR_SENTINEL and STRING_CONTENT not acceptable, no pending DEDENT
emitted), on a stack within the array, emits NEWLINE after consuming the line break and
every space, tab and line break that follows, so that the next character is none of them
and the next call finds no line break; the token ends at the cursor; the stack is
unchanged, and the counter is unchanged unless the input is at its end, where it becomes
the depth. -/
theorem blank_lines_absorbed (s : Scanner) (lx : TSLexer) (ws tail : List Nat) (nl : Nat)
    (valid : TokenType → Bool) (hrest : lx.rest = ws ++ nl :: tail)
    (hk : s.stack_size ≤ MAX_INDENT_DEPTH)
    (hws : ∀ c ∈ ws, is_blank c = true) (hnl : is_break nl = true)
    (hN : valid NEWLINE = true) (hE : valid ERROR_SENTINEL = false)
    (hS : valid STRING_CONTENT = false)
    (hP : ¬ (valid DEDENT = true ∧ s.dedent_count > 0)) :
    ∃ r, scan s lx valid = some r ∧ r.returned = true ∧ r.lexer.result_symbol = NEWLINE ∧
      r.lexer.rest = tail.dropWhile is_space ∧ is_space r.lexer.lookahead = false ∧
      r.lexer.accept.rest = r.lexer.rest ∧ found_newline r.lexer.accept = false ∧
      r.scanner.stack_size = s.stack_size ∧ r.scanner.indent_stack = s.indent_stack ∧
      (r.lexer.rest ≠ [] → r.scanner = s) ∧
      (r.lexer.rest = [] → r.scanner.dedent_count = s.stack_size) := by
  have hdrop : lx.rest.dropWhile is_blank = nl :: tail := by
    rw [hrest]
    exact dropWhile_append_of_all is_blank ws nl tail hws (not_blank_of_break hnl)
  have hsp : is_space nl = true := by simp [is_space, hnl]
  have hafter : (after_whitespace lx).rest = tail.dropWhile is_space := by
    rw [after_whitespace_rest, hdrop]
    simp only [List.dropWhile, hsp]
  have hscan := scan_newline s lx valid hk hE hP hS hN (by rw [hdrop]; exact hnl)
  have hla := after_whitespace_lookahead lx
  refine ⟨_, hscan, rfl, rfl, hafter, hla, rfl, ?_, ?_, ?_, ?_, ?_⟩
  · rw [found_newline_eq]
    have hr : ({ (skip_lines (skip_blanks lx)).2.2.mark_end with
        result_symbol := NEWLINE } : TSLexer).accept.rest = tail.dropWhile is_space := by
      rw [accept_of_marked]
      exact hafter
    rw [hr]
    have hb : (tail.dropWhile is_space).dropWhile is_blank = tail.dropWhile is_space := by
      apply dropWhile_of_not_cond
      rintro ⟨c, cs, h1, h2⟩
      exact head_dropWhile_not is_space tail ⟨c, cs, h1, by simp [is_space, h2]⟩
    rw [hb]
    cases hl : tail.dropWhile is_space with
    | nil => rfl
    | cons c cs =>
      cases hc : is_break c with
      | false => exact hc
      | true =>
        exact absurd ⟨c, cs, hl, by simp [is_space, hc]⟩ (head_dropWhile_not is_space tail)
  · show (if _ then _ else s : Scanner).stack_size = s.stack_size
    split <;> rfl
  · show (if _ then _ else s : Scanner).indent_stack = s.indent_stack
    split <;> rfl
  · intro hne
    have heof : (skip_lines (skip_blanks lx)).2.2.eof = false := by
      unfold TSLexer.eof
      have : (skip_lines (skip_blanks lx)).2.2.rest ≠ [] := hne
      cases h : (skip_lines (skip_blanks lx)).2.2.rest with
      | nil => exact absurd h this
      | cons c cs => rfl
    show (if (skip_lines (skip_blanks lx)).2.2.eof = true then _ else s) = s
    rw [heof]
    rfl
  · intro hnil
    have heof : (skip_lines (skip_blanks lx)).2.2.eof = true := by
      unfold TSLexer.eof
      have : (skip_lines (skip_blanks lx)).2.2.rest = [] := hnil
      rw [this]
      rfl
    show (if (skip_lines (skip_blanks lx)).2.2.eof = true then _ else s : Scanner).dedent_count
      = s.stack_size
    rw [heof]
    rfl

/-- Witness of C17: a space, a line break, a line of one tab, an empty line and two spaces
before `x`, on the stack `[2, 4]`. -/
theorem blank_lines_absorbed_witness :
    ∃ r, scan two_levels (start ([SPACE] ++ LF :: [TAB, LF, CR, SPACE, SPACE, 120]) 3 INDENT)
        (only NEWLINE) = some r ∧
      r.returned = true ∧ r.lexer.result_symbol = NEWLINE ∧
      r.lexer.rest = [TAB, LF, CR, SPACE, SPACE, 120].dropWhile is_space ∧
      is_space r.lexer.lookahead = false ∧
      r.lexer.accept.rest = r.lexer.rest ∧ found_newline r.lexer.accept = false ∧
      r.scanner.stack_size = two_levels.stack_size ∧
      r.scanner.indent_stack = two_levels.indent_stack ∧
      (r.lexer.rest ≠ [] → r.scanner = two_levels) ∧
      (r.lexer.rest = [] → r.scanner.dedent_count = two_levels.stack_size) :=
  blank_lines_absorbed two_levels
    (start ([SPACE] ++ LF :: [TAB, LF, CR, SPACE, SPACE, 120]) 3 INDENT) [SPACE]
    [TAB, LF, CR, SPACE, SPACE, 120] LF (only NEWLINE) rfl (by decide) (by decide) rfl rfl rfl rfl
    (by decide)

end SassScanner
